import Mathlib

/-!
Verification development for the multi-provider transcription pipeline of the
voice-agent repository.  The embedded code comes from two source files:

* `audio-processor.js` (enhanced variant): `analyzeAudioQuality`,
  `detectMimeType`, `calculateConfidence`, `validateAudio`, `applyCorrections`;
* the transcription-service module: `transcribeWithGemini` (prompt selection and
  HTTP-status error mapping), `transcribeWithGroq` (error mapping), and the
  `transcribe` orchestrator (provider sequencing, retry/backoff, final cleanup).

Strings are modelled as `List Char`; byte buffers as `List Nat` (bytes 0..255);
JavaScript numbers as exact
rationals (the `JQ` type below; the floating-point rounding of the source
cannot change any comparison used in the theorems below, which all have
non-trivial margins).  Network providers are modelled as
oracles giving the outcome of each provider invocation; the orchestrator emits
an event trace recording provider calls and backoff sleeps.
-/

namespace Voice

/-- ASCII fragment of the JavaScript whitespace class `\s` used by the source
regexes (space, tab, LF, VT, FF, CR).  All strings appearing in the claims are
ASCII, so the Unicode members of `\s` are irrelevant here. -/
def isWsChar (c : Char) : Bool :=
  c == ' ' || c == '\t' || c == '\n' || c == '\r' || c == Char.ofNat 11 || c == Char.ofNat 12

/-- JavaScript word character (the `\w` class used by the `\b` boundary):
`[A-Za-z0-9_]`. -/
def isWordChar (c : Char) : Bool :=
  ('a' ≤ c && c ≤ 'z') || ('A' ≤ c && c ≤ 'Z') || ('0' ≤ c && c ≤ '9') || c == '_'

/-- ASCII lower-casing, matching the `i` flag of the source regexes on the
ASCII strings considered here. -/
def lowerAscii (c : Char) : Char :=
  if 'A' ≤ c && c ≤ 'Z' then Char.ofNat (c.toNat + 32) else c

/-- Case-insensitive character comparison (ASCII). -/
def ciEq (a b : Char) : Bool := lowerAscii a == lowerAscii b

/-- Abstract syntax for the regex fragment actually used by the source's
`applyCorrections` rules: literals (case sensitive and insensitive),
character classes, `\s+`, `\s*`, `.*` (only inside lookaheads), the `\b`
boundary, sequencing, ordered alternation, greedy `?`, one capture group and
lookahead `(?=...)`. -/
inductive RE where
  | eps
  | lit (c : Char)
  | litCI (c : Char)
  | cls (p : Char → Bool)
  | ws1
  | ws0
  | anyStar
  | wb
  | seq (a b : RE)
  | alt (a b : RE)
  | opt (a : RE)
  | grp (a : RE)
  | look (a : RE)

/-- Number of leading whitespace characters. -/
def wsCount : List Char → Nat
  | [] => 0
  | c :: s => if isWsChar c then wsCount s + 1 else 0

/-- Greedy preference list `[k, k-1, ..., 1]`. -/
def descFrom1 : Nat → List Nat
  | 0 => []
  | k + 1 => (k + 1) :: descFrom1 k

/-- Greedy preference list `[k, k-1, ..., 0]`. -/
def descFrom0 (k : Nat) : List Nat := descFrom1 k ++ [0]

/-- The character preceding the position reached after consuming `k`
characters of `s` (used for `\b`); `prev` is the character before `s`. -/
def prevAfter (prev : Option Char) (k : Nat) (s : List Char) : Option Char :=
  if k = 0 then prev else
    match s.get? (k - 1) with
    | some c => some c
    | none => prev

/-- Combine the captures of two sequenced sub-matches (at most one group per
rule in the source, so at most one side is non-empty). -/
def pickCap (c1 c2 : List Char) : List Char := if c1.isEmpty then c2 else c1

/-- JavaScript `\b`: exactly one of the two adjacent characters is a word
character (a missing side counts as non-word). -/
def boundaryOk (prev next : Option Char) : Bool :=
  (match prev with | some c => isWordChar c | none => false) !=
  (match next with | some c => isWordChar c | none => false)

/-- Backtracking matcher: all matches of `r` at the start of `s` (`prev` is the
character just before `s`), as pairs (consumed length, capture of group 1), in
JavaScript preference order (leftmost alternative first, greedy quantifiers
longest first).  The first element is the match JavaScript uses. -/
def mlist : RE → Option Char → List Char → List (Nat × List Char)
  | .eps, _, _ => [(0, [])]
  | .lit _, _, [] => []
  | .lit c, _, a :: _ => if a == c then [(1, [])] else []
  | .litCI _, _, [] => []
  | .litCI c, _, a :: _ => if ciEq a c then [(1, [])] else []
  | .cls _, _, [] => []
  | .cls p, _, a :: _ => if p a then [(1, [])] else []
  | .ws1, _, s => (descFrom1 (wsCount s)).map (fun k => (k, []))
  | .ws0, _, s => (descFrom0 (wsCount s)).map (fun k => (k, []))
  | .anyStar, _, s => (descFrom0 s.length).map (fun k => (k, []))
  | .wb, prev, s => if boundaryOk prev s.head? then [(0, [])] else []
  | .seq a b, prev, s =>
      (mlist a prev s).flatMap (fun kc =>
        (mlist b (prevAfter prev kc.1 s) (s.drop kc.1)).map
          (fun kc2 => (kc.1 + kc2.1, pickCap kc.2 kc2.2)))
  | .alt a b, prev, s => mlist a prev s ++ mlist b prev s
  | .opt a, prev, s => mlist a prev s ++ [(0, [])]
  | .grp a, prev, s => (mlist a prev s).map (fun kc => (kc.1, s.take kc.1))
  | .look a, prev, s => if (mlist a prev s).isEmpty then [] else [(0, [])]

/-- A replacement template part: a literal string or the `$1` capture. -/
inductive TPart where
  | str (cs : List Char)
  | group1

/-- Instantiate a replacement template with the capture of group 1. -/
def instParts (ps : List TPart) (cap : List Char) : List Char :=
  ps.flatMap (fun p => match p with | .str cs => cs | .group1 => cap)

/-- One search/replace rule of the source's `corrections` array. -/
structure Rule where
  pat : RE
  tmpl : List TPart

/-- Fuelled global replacement scan: the JavaScript semantics of
`String.replace` with a global regex.  At each position the first match is
taken; on a match of length `k > 0` the replacement is emitted and scanning
resumes after the consumed characters of the original string (replacements are
never rescanned); otherwise one character is copied.  Fuel `s.length + 1`
always suffices. -/
def scanF (pat : RE) (tmpl : List TPart) : Nat → Option Char → List Char → List Char
  | 0, _, s => s
  | _ + 1, _, [] => []
  | fuel + 1, prev, c :: s =>
      match (mlist pat prev (c :: s)).head? with
      | some kc =>
          if kc.1 = 0 then
            instParts tmpl kc.2 ++ c :: scanF pat tmpl fuel (some c) s
          else
            instParts tmpl kc.2 ++
              scanF pat tmpl fuel (prevAfter prev kc.1 (c :: s)) (List.drop kc.1 (c :: s))
      | none => c :: scanF pat tmpl fuel (some c) s

/-- Global replacement of `r` in `s` (the whole-string scan). -/
def scanR (r : Rule) (prev : Option Char) (s : List Char) : List Char :=
  scanF r.pat r.tmpl (s.length + 1) prev s

/-- Case-insensitive literal word. -/
def strCI (w : String) : RE := w.data.foldr (fun c r => RE.seq (RE.litCI c) r) RE.eps

/-- Case-sensitive literal word. -/
def strCS (w : String) : RE := w.data.foldr (fun c r => RE.seq (RE.lit c) r) RE.eps

/-- Sequence of regexes. -/
def seqL (rs : List RE) : RE := rs.foldr RE.seq RE.eps

/-- Ordered alternation of regexes. -/
def altL : List RE → RE
  | [] => RE.eps
  | [r] => r
  | r :: rs => RE.alt r (altL rs)

/-- `\bWORD\b`, case-insensitive. -/
def bword (w : String) : RE := seqL [RE.wb, strCI w, RE.wb]

/-- Constant replacement template. -/
def tS (s : String) : List TPart := [TPart.str s.data]

/-- The apostrophe character. -/
def apos : Char := Char.ofNat 39

/-- Replacement template for a contraction `a'b`. -/
def tA (a b : String) : List TPart := [TPart.str (a.data ++ apos :: b.data)]

/-- `\bA\s+B\b`, case-insensitive. -/
def w2 (a b : String) : RE := seqL [RE.wb, strCI a, RE.ws1, strCI b, RE.wb]

/-- `\bA\s*B\b`, case-insensitive. -/
def w2s (a b : String) : RE := seqL [RE.wb, strCI a, RE.ws0, strCI b, RE.wb]

/-- `(?=\s+(?:w1|w2|...))`, case-sensitive words, as in the contraction rules. -/
def lookWords (ws : List String) : RE := RE.look (seqL [RE.ws1, altL (ws.map strCS)])

/-- `\bWORD\b`, case-sensitive (the contraction rules have no `i` flag). -/
def bwordCS (w : String) : RE := seqL [RE.wb, strCS w, RE.wb]

/-- Corrections segment: `AI/Creative Tech terms - high priority` (source order). -/
def correctionsA : List Rule := [
  ⟨seqL [RE.wb, strCI "eye", RE.ws1,
     RE.grp (altL [RE.seq (strCI "tool") (RE.opt (RE.litCI 's')),
       strCI "for", strCI "in", strCI "to", strCI "and"]), RE.wb],
   [TPart.str "AI ".data, TPart.group1]⟩,
  ⟨seqL [RE.wb, RE.litCI 'a', RE.ws1, RE.litCI 'i', RE.ws1], tS "AI "⟩,
  ⟨seqL [RE.wb, strCI "ay", RE.ws1, RE.litCI 'i', RE.ws1], tS "AI "⟩,
  ⟨seqL [RE.wb, strCI "aey", RE.ws1, RE.litCI 'i', RE.ws1], tS "AI "⟩,
  ⟨seqL [RE.wb, strCI "hey", RE.ws1, RE.litCI 'i', RE.ws1], tS "AI "⟩,
  ⟨w2 "artificial" "intelligence", tS "AI"⟩]

/-- Corrections segment: `ESMOD specific` (source order). -/
def correctionsB : List Rule := [
  ⟨bword "esmod", tS "ESMOD"⟩,
  ⟨bword "ezmod", tS "ESMOD"⟩,
  ⟨w2 "es" "mod", tS "ESMOD"⟩,
  ⟨w2 "es" "mode", tS "ESMOD"⟩]

/-- Corrections segment: `RODE Framework` (source order). -/
def correctionsC : List Rule := [
  ⟨w2 "rode" "framework", tS "RODE framework"⟩,
  ⟨w2 "road" "framework", tS "RODE framework"⟩,
  ⟨seqL [RE.wb, strCI "rode", RE.wb,
     RE.look (seqL [RE.anyStar, RE.wb, strCI "framework", RE.wb])], tS "RODE"⟩,
  ⟨seqL [RE.wb, strCI "rode", RE.wb,
     RE.look (seqL [RE.anyStar, RE.wb,
       RE.grp (altL [strCI "role", strCI "objective", strCI "details", strCI "examples"]),
       RE.wb])], tS "RODE"⟩]

/-- Corrections segment: `Course/Branding terms` (source order). -/
def correctionsD : List Rule := [
  ⟨w2 "creative" "tech", tS "Creative Tech"⟩,
  ⟨w2 "creative" "technology", tS "Creative Technology"⟩,
  ⟨w2 "brand" "challenge", tS "Brand Challenge"⟩,
  ⟨w2 "era" "bending", tS "Era Bending"⟩,
  ⟨w2 "mix" "board", tS "Mix Board"⟩,
  ⟨w2 "mini" "exercise", tS "Mini Exercise"⟩]

/-- Corrections segment: `Common AI tools` (source order). -/
def correctionsE : List Rule := [
  ⟨w2s "chat" "gpt", tS "ChatGPT"⟩,
  ⟨w2 "chat" "gpt", tS "ChatGPT"⟩,
  ⟨w2 "chad" "gpt", tS "ChatGPT"⟩,
  ⟨w2s "mid" "journey", tS "Midjourney"⟩,
  ⟨bword "midjourney", tS "Midjourney"⟩,
  ⟨w2s "stable" "diffusion", tS "Stable Diffusion"⟩,
  ⟨seqL [RE.wb, strCI "dall", RE.ws0, RE.litCI 'e', RE.wb], tS "DALL-E"⟩,
  ⟨bword "claude", tS "Claude"⟩,
  ⟨bword "perplexity", tS "Perplexity"⟩,
  ⟨seqL [RE.wb, strCI "leonardo", RE.opt (RE.lit '.'), strCI "ai", RE.wb], tS "Leonardo.ai"⟩,
  ⟨w2s "photo" "shop", tS "Photoshop"⟩,
  ⟨w2 "java" "script", tS "JavaScript"⟩,
  ⟨w2 "type" "script", tS "TypeScript"⟩,
  ⟨w2s "node" "js", tS "Node.js"⟩,
  ⟨w2s "react" "js", tS "React"⟩,
  ⟨w2s "next" "js", tS "Next.js"⟩]

/-- Corrections segment: `Fashion industry terms` (source order). -/
def correctionsF : List Rule := [
  ⟨w2 "haute" "couture", tS "haute couture"⟩,
  ⟨seqL [RE.wb, strCI "pr", RE.cls (fun c => c == 'ê' || c == 'Ê' || c == 'e' || c == 'E'),
     RE.litCI 't', RE.cls (fun c => isWsChar c || c == '-'),
     RE.cls (fun c => c == 'a' || c == 'A' || c == 'à' || c == 'À'),
     RE.ws0, strCI "porter", RE.wb], tS "prêt-à-porter"⟩,
  ⟨seqL [RE.wb, strCI "ready", RE.ws1, strCI "to", RE.ws1, strCI "wear", RE.wb],
   tS "ready-to-wear"⟩,
  ⟨w2 "capsule" "collection", tS "capsule collection"⟩,
  ⟨w2 "diffusion" "line", tS "diffusion line"⟩,
  ⟨w2s "look" "book", tS "lookbook"⟩,
  ⟨w2s "mood" "board", tS "moodboard"⟩,
  ⟨w2s "story" "board", tS "storyboard"⟩,
  ⟨w2 "fabric" "board", tS "fabric board"⟩,
  ⟨w2 "color" "palette", tS "color palette"⟩,
  ⟨bword "runway", tS "runway"⟩,
  ⟨bword "catwalk", tS "catwalk"⟩,
  ⟨bword "garment", tS "garment"⟩,
  ⟨bword "silhouette", tS "silhouette"⟩,
  ⟨bword "textile", tS "textile"⟩,
  ⟨bword "fabric", tS "fabric"⟩,
  ⟨w2 "pattern" "making", tS "pattern making"⟩,
  ⟨bword "atelier", tS "atelier"⟩,
  ⟨w2 "fashion" "house", tS "fashion house"⟩,
  ⟨w2 "designer" "label", tS "designer label"⟩,
  ⟨w2 "luxury" "brand", tS "luxury brand"⟩,
  ⟨w2 "fashion" "week", tS "Fashion Week"⟩]

/-- Corrections segment: `Creative process terms` (source order). -/
def correctionsG : List Rule := [
  ⟨w2s "brain" "storm", tS "brainstorm"⟩,
  ⟨w2 "brain" "storming", tS "brainstorming"⟩,
  ⟨bword "ideation", tS "ideation"⟩,
  ⟨w2 "concept" "development", tS "concept development"⟩,
  ⟨w2 "rapid" "prototyping", tS "rapid prototyping"⟩,
  ⟨w2 "iterative" "design", tS "iterative design"⟩,
  ⟨w2 "design" "thinking", tS "design thinking"⟩,
  ⟨w2 "user" "experience", tS "user experience"⟩,
  ⟨w2 "user" "interface", tS "user interface"⟩]

/-- Corrections segment: `Rubric/Grading terms` (source order). -/
def correctionsH : List Rule := [
  ⟨w2 "grading" "rubric", tS "grading rubric"⟩,
  ⟨w2 "assessment" "criteria", tS "assessment criteria"⟩,
  ⟨w2 "ten" "points", tS "10 points"⟩,
  ⟨seqL [RE.wb, strCI "ten", RE.ws0, RE.lit '/', RE.ws0, strCI "10", RE.wb], tS "10/10"⟩]

/-- Corrections segment: `Common contractions and speech artifacts` (source order). -/
def correctionsI : List Rule := [
  ⟨w2 "i" "mean", tS "I mean"⟩,
  ⟨w2 "i" "think", tS "I think"⟩,
  ⟨w2 "i" "guess", tS "I guess"⟩,
  ⟨w2 "i" "suppose", tS "I suppose"⟩,
  ⟨bwordCS "im", tA "I" "m"⟩,
  ⟨bwordCS "dont", tA "don" "t"⟩,
  ⟨bwordCS "wont", tA "won" "t"⟩,
  ⟨bwordCS "cant", tA "can" "t"⟩,
  ⟨bwordCS "isnt", tA "isn" "t"⟩,
  ⟨bwordCS "didnt", tA "didn" "t"⟩,
  ⟨bwordCS "havent", tA "haven" "t"⟩,
  ⟨bwordCS "hasnt", tA "hasn" "t"⟩,
  ⟨bwordCS "wouldnt", tA "wouldn" "t"⟩,
  ⟨bwordCS "couldnt", tA "couldn" "t"⟩,
  ⟨bwordCS "shouldnt", tA "shouldn" "t"⟩,
  ⟨bwordCS "thats", tA "that" "s"⟩,
  ⟨bwordCS "theres", tA "there" "s"⟩,
  ⟨bwordCS "heres", tA "here" "s"⟩,
  ⟨bwordCS "whats", tA "what" "s"⟩,
  ⟨bwordCS "wheres", tA "where" "s"⟩,
  ⟨bwordCS "hows", tA "how" "s"⟩,
  ⟨RE.seq (bwordCS "its") (lookWords ["a", "an", "the", "not"]), tA "it" "s"⟩,
  ⟨bwordCS "youre", tA "you" "re"⟩,
  ⟨RE.seq (bwordCS "were") (lookWords ["going", "planning", "working"]), tA "we" "re"⟩,
  ⟨bwordCS "theyre", tA "they" "re"⟩,
  ⟨bwordCS "ill", tA "I" "ll"⟩,
  ⟨bwordCS "youl", tA "you" "ll"⟩,
  ⟨bwordCS "hell", tA "he" "ll"⟩,
  ⟨bwordCS "shell", tA "she" "ll"⟩,
  ⟨RE.seq (bwordCS "well") (lookWords ["see", "try", "do", "have"]), tA "we" "ll"⟩,
  ⟨bwordCS "dont", tA "don" "t"⟩,
  ⟨bwordCS "wont", tA "won" "t"⟩]

/-- Corrections segment: `Common misheard words/phrases` (source order). -/
def correctionsJ : List Rule := [
  ⟨bword "uhm", tS "um"⟩,
  ⟨bword "ahm", tS "um"⟩,
  ⟨bword "uh", tS ""⟩,
  ⟨w2 "like" "like", tS "like"⟩,
  ⟨seqL [RE.wb, strCI "you", RE.ws1, strCI "know", RE.ws1, strCI "what", RE.ws1,
     strCI "i", RE.ws1, strCI "mean", RE.wb], tS ""⟩,
  ⟨seqL [RE.wb, RE.litCI 'i', RE.ws1, strCI "mean", RE.opt (RE.lit ','), RE.ws1,
     strCI "like", RE.wb], tS ""⟩,
  ⟨w2 "sort" "of", tS ""⟩,
  ⟨w2 "kind" "of", tS ""⟩]

/-- Corrections segment: `Punctuation fixes` (source order). -/
def correctionsK : List Rule := [
  ⟨RE.seq RE.ws1 (RE.lit ','), tS ","⟩,
  ⟨RE.seq RE.ws1 (RE.lit '.'), tS "."⟩,
  ⟨RE.seq RE.ws1 (RE.lit '?'), tS "?"⟩,
  ⟨RE.seq RE.ws1 (RE.lit '!'), tS "!"⟩,
  ⟨seqL [RE.lit '.', RE.ws0, RE.lit '.', RE.ws0, RE.lit '.'], tS "..."⟩]

/-- The `corrections` array of the enhanced `applyCorrections` in
`audio-processor.js`: the concatenation of the segments above, rule for rule
in source order. -/
def corrections : List Rule :=
  correctionsA ++ correctionsB ++ correctionsC ++ correctionsD ++ correctionsE ++
  correctionsF ++ correctionsG ++ correctionsH ++ correctionsI ++ correctionsJ ++
  correctionsK

/-- The final `corrected.replace(/\s+/g, ' ')` pass. -/
def wsCollapse : Rule := ⟨RE.ws1, tS " "⟩

/-- JavaScript `String.trim` (ASCII whitespace, see `isWsChar`). -/
def jsTrim (s : List Char) : List Char :=
  ((s.dropWhile isWsChar).reverse.dropWhile isWsChar).reverse

/-- Member of the class `[,.\s]` of the final edge-stripping regex. -/
def isEdgeChar (c : Char) : Bool := c == ',' || c == '.' || isWsChar c

/-- The final `replace(/^[,.\s]+|[,.\s]+$/g, '')`: removes the leading and the
trailing run of `[,.\s]` characters. -/
def stripEdges (s : List Char) : List Char :=
  ((s.dropWhile isEdgeChar).reverse.dropWhile isEdgeChar).reverse

/-- Apply every correction rule in order (the `for (const correction of
corrections)` loop). -/
def runRules (rs : List Rule) (s : List Char) : List Char :=
  rs.foldl (fun acc r => scanR r none acc) s

/-- `applyCorrections` of the enhanced `audio-processor.js` on `List Char`
(the source returns a falsy/non-string input unchanged; the rule loop, the
whitespace collapse + trim, and the edge strip follow). -/
def applyCorrectionsL (s : List Char) : List Char :=
  if s.isEmpty then s else
    stripEdges (jsTrim (scanR wsCollapse none (runRules corrections s)))

/-- `applyCorrections` on `String`. -/
def applyCorrections (s : String) : String := String.mk (applyCorrectionsL s.data)

/-! ## Exact rational numbers for the JavaScript arithmetic

The JavaScript numbers of the source are modelled as exact (unnormalized)
fractions `num / den`.  Every value the embedded code constructs has a
positive denominator (all divisors in the source paths are positive), so
comparisons are cross-multiplications.  Exact arithmetic is an idealisation of
the source's binary floating point; every comparison appearing in a theorem
below has a margin far above any float rounding error. -/

/-- An exact fraction `num / den` (denominator positive for every value the
embedded code builds). -/
structure JQ where
  num : Int
  den : Nat
deriving DecidableEq, Repr

/-- Embed an integer. -/
def JQ.ofInt (n : Int) : JQ := ⟨n, 1⟩

/-- Embed a natural number. -/
def JQ.ofNat (n : Nat) : JQ := ⟨(n : Int), 1⟩

instance : OfNat JQ n := ⟨⟨(n : Int), 1⟩⟩

instance : Add JQ := ⟨fun a b => ⟨a.num * b.den + b.num * a.den, a.den * b.den⟩⟩

instance : Sub JQ := ⟨fun a b => ⟨a.num * b.den - b.num * a.den, a.den * b.den⟩⟩

instance : Mul JQ := ⟨fun a b => ⟨a.num * b.num, a.den * b.den⟩⟩

/-- Division; the sign moves to the numerator so the denominator stays a
natural number.  (Division by a zero value never occurs on the embedded
paths.) -/
instance : Div JQ :=
  ⟨fun a b =>
    if b.num < 0 then ⟨-(a.num * b.den), a.den * b.num.natAbs⟩
    else ⟨a.num * b.den, a.den * b.num.natAbs⟩⟩

instance : LE JQ := ⟨fun a b => a.num * b.den ≤ b.num * a.den⟩

instance : LT JQ := ⟨fun a b => a.num * b.den < b.num * a.den⟩

instance (a b : JQ) : Decidable (a ≤ b) := Int.decLe _ _

instance (a b : JQ) : Decidable (a < b) := Int.decLt _ _

/-- `Math.max`. -/
def jmax (a b : JQ) : JQ := if a ≤ b then b else a

/-- `Math.min`. -/
def jmin (a b : JQ) : JQ := if a ≤ b then a else b

/-- Value equality of fractions (cross-multiplication). -/
def JQ.eqv (a b : JQ) : Prop := a.num * b.den = b.num * a.den

instance (a b : JQ) : Decidable (JQ.eqv a b) := Int.instDecidableEq _ _

/-- JavaScript falsiness of a number (`0` is falsy). -/
def JQ.isZero (a : JQ) : Bool := a.num == 0

/-! ## Audio quality analysis (`analyzeAudioQuality` and friends) -/

/-- Coarse quality bucket (`quality` in `analyzeAudioQuality`). -/
inductive QTier where
  | good
  | fair
  | poor
deriving DecidableEq, Repr

/-- `sampleSize = Math.min(buffer.length, 2048)`. -/
def sSize (b : List Nat) : Nat := min b.length 2048

/-- The sampled bytes: `buffer[i * step]` for `i < sampleSize` with
`i * step < buffer.length`, where `step = Math.floor(length / sampleSize)`. -/
def sampledBytes (b : List Nat) : List Nat :=
  let n := b.length
  let step := n / sSize b
  (List.range (sSize b)).filterMap (fun i => if i * step < n then b.get? (i * step) else none)

/-- `zeroCount` over the sampled bytes. -/
def zCount (b : List Nat) : Nat := (sampledBytes b).count 0

/-- `byteSum` over the sampled bytes. -/
def bSum (b : List Nat) : Nat := (sampledBytes b).sum

/-- `byteSqSum` over the sampled bytes. -/
def bSqSum (b : List Nat) : Nat := ((sampledBytes b).map (fun x => x * x)).sum

/-- The variance `byteSqSum/ss - (byteSum/ss)^2` as an exact rational; the
source stores `entropy = Math.sqrt(variance)` and only ever compares it with
non-negative constants, so comparisons with `entropy` are modelled as
comparisons of `varQ` with the squared constant.  For the empty buffer the
source divides by zero (`NaN`); we return `0` and guard every comparison with
`0 < sSize b`, which reproduces the all-false NaN comparison semantics. -/
def varQ (b : List Nat) : JQ :=
  if sSize b = 0 then ⟨0, 1⟩
  else ⟨(sSize b : Int) * bSqSum b - (bSum b : Int) ^ 2, sSize b ^ 2⟩

/-- `zeroRatio = zeroCount / sampleSize` (`0` in place of the source's NaN on
the empty buffer; it is only used arithmetically for non-empty buffers). -/
def zFrac (b : List Nat) : JQ :=
  if sSize b = 0 then ⟨0, 1⟩ else ⟨(zCount b : Int), sSize b⟩

/-- Header sniff of `analyzeAudioQuality`: EBML/WebM, RIFF/WAV or the two MP3
frame syncs, with the source's strict `buffer.length > 4` guard. -/
def hasHeaderSniff (b : List Nat) : Bool :=
  decide (4 < b.length) &&
    (b.take 4 == [26, 69, 223, 163] || b.take 4 == [82, 73, 70, 70] ||
     b.take 2 == [255, 227] || b.take 2 == [255, 243])

/-- `estimatedDuration`: `buffer.length > 1000 ? Math.max(0.5, (length - 500) / 3000) : 0`. -/
def estDuration (b : List Nat) : JQ :=
  if 1000 < b.length then jmax ((1 : JQ) / 2) ((⟨(b.length : Int) - 500, 1⟩ : JQ) / 3000)
  else 0

/-- The `AudioQuality` record returned by `analyzeAudioQuality`. -/
structure AudioQuality where
  hasValidHeader : Bool
  zeroFrac : JQ
  isMostlySilence : Bool
  isLowSignal : Bool
  size : Nat
  estimatedDuration : JQ
  varianceQ : JQ
  quality : QTier
  recommended : Bool

/-- `analyzeAudioQuality` (enhanced `audio-processor.js`).  Threshold
constants from `AUDIO_CONFIG`: `minSilenceThreshold = 0.02 = 1/50`,
`maxSilenceThreshold = 0.95 = 19/20`, the `fair` bound `0.5 = 1/2`; entropy
thresholds `10` (low signal) and `5` (recommended) appear squared against
`varQ`.  All comparisons carry a `0 < sSize` guard reproducing the NaN
semantics on the empty buffer (every NaN comparison is false). -/
def analyzeAudioQuality (b : List Nat) : AudioQuality :=
  { hasValidHeader := hasHeaderSniff b
    zeroFrac := zFrac b
    isMostlySilence := decide (19 * sSize b < 20 * zCount b)
    isLowSignal := decide (0 < sSize b) && decide (varQ b < 100)
    size := b.length
    estimatedDuration := estDuration b
    varianceQ := varQ b
    quality :=
      if 0 < sSize b ∧ 50 * zCount b < sSize b then QTier.good
      else if 0 < sSize b ∧ 2 * zCount b < sSize b then QTier.fair
      else QTier.poor
    recommended := decide (0 < sSize b) && decide (20 * zCount b < 19 * sSize b)
      && decide (25 < varQ b) }

/-- `detectMimeType` (byte signatures; `'ftyp'` is checked at offset 4). -/
def detectMimeType (b : List Nat) : String :=
  if b.length < 4 then "audio/webm"
  else if b.take 4 == [26, 69, 223, 163] then "audio/webm"
  else if b.take 4 == [82, 73, 70, 70] then "audio/wav"
  else if b.take 2 == [255, 227] || b.take 2 == [255, 243] ||
          b.take 2 == [255, 251] || b.take 2 == [255, 250] then "audio/mpeg"
  else if b.take 4 == [79, 103, 103, 83] then "audio/ogg"
  else if (b.drop 4).take 4 == [102, 116, 121, 112] then "audio/mp4"
  else if b.take 4 == [102, 76, 97, 67] then "audio/flac"
  else "audio/webm"

/-! ## Confidence scoring (`calculateConfidence`) -/

/-- Number of maximal non-whitespace runs (the `inWord` flag tracks whether
the previous character was part of a word). -/
def runCountAux : Bool → List Char → Nat
  | _, [] => 0
  | inWord, c :: s =>
      if isWsChar c then runCountAux false s
      else (if inWord then 0 else 1) + runCountAux true s

/-- `transcript.trim().split(/\s+/).length`: the number of whitespace-separated
words of the trimmed transcript; splitting the empty string yields one (empty)
field, so the result is never `0`. -/
def jsWordCount (t : List Char) : Nat :=
  let tr := jsTrim t
  if tr.isEmpty then 1 else runCountAux false tr

/-- `text.split(/\s+/).length` on the raw (untrimmed) text, as in the Whisper
confidence heuristic: leading or trailing whitespace contributes an extra
empty field, and splitting the empty string yields one field. -/
def jsSplitLenRaw : List Char → Nat
  | [] => 1
  | c :: s =>
      runCountAux false (c :: s) + (if isWsChar c then 1 else 0) +
        (if ((c :: s).getLast?.elim false isWsChar) then 1 else 0)

/-- `calculateConfidence(quality, transcript, duration)`, rule for rule from
the source: base `0.5`; tier bonus/penalty; `- zeroRatio * 0.3`; entropy
bonus/penalty (squared comparisons against `varQ`, NaN-guarded); words/second
plausibility; the `words < 1` branch (unreachable, kept for fidelity); the
empty-transcript value `0.05`; clamp to `[0, 1]`. -/
def calculateConfidence (q : AudioQuality) (transcript : List Char) (duration : JQ) : JQ :=
  let c1 : JQ := 1 / 2
  let c2 :=
    if q.quality = QTier.good then c1 + 2 / 10
    else if q.quality = QTier.fair then c1 + 1 / 10
    else c1 - 2 / 10
  let c3 := c2 - q.zeroFrac * (3 / 10)
  let c4 :=
    if 0 < q.size ∧ (900 : JQ) < q.varianceQ then c3 + 1 / 10
    else if 0 < q.size ∧ q.varianceQ < (100 : JQ) then c3 - 2 / 10
    else c3
  let c5 :=
    if transcript.isEmpty then (5 / 100 : JQ)
    else
      let words := jsWordCount transcript
      let wps := if 0 < duration then JQ.ofNat words / duration else (0 : JQ)
      let cA :=
        if 1 ≤ wps ∧ wps ≤ 6 then c4 + 1 / 10
        else if 8 < wps ∨ wps < 1 / 2 then c4 - 15 / 100
        else c4
      if words < 1 then (1 / 10 : JQ) else cA
  jmax 0 (jmin 1 c5)

/-! ## Validation (`validateAudio`) -/

/-- Result of `validateAudio`: the source's `{valid:false, ...}` records keyed
by their `code` field, or the accepted buffer with quality and truncation
marker. -/
inductive ValidateResult where
  | noAudio
  | tooShort
  | tooLarge
  | silence (quality : AudioQuality)
  | accepted (buffer : List Nat) (quality : AudioQuality) (truncated : Bool)

/-- `validateAudio`: empty → no-audio; `< 1000` bytes → `TOO_SHORT`;
`> 10 MiB` → `TOO_LARGE`; then the quality analysis and the `SILENCE` gate;
finally truncation to the 8 MB provider limit. -/
def validateAudio (buffer : List Nat) : ValidateResult :=
  if buffer.isEmpty then ValidateResult.noAudio
  else if buffer.length < 1000 then ValidateResult.tooShort
  else if 10 * 1024 * 1024 < buffer.length then ValidateResult.tooLarge
  else
    let q := analyzeAudioQuality buffer
    if q.isMostlySilence then ValidateResult.silence q
    else
      ValidateResult.accepted
        (if 8000000 < buffer.length then buffer.take 8000000 else buffer)
        q (decide (8000000 < buffer.length))

/-! ## Error kinds and provider error mapping -/

/-- The error kinds producible by the embedded code: the closed taxonomy of
spec §7 plus the generic `API_ERROR` that the Gemini and Groq adapters throw
for unclassified HTTP statuses. -/
inductive ErrType where
  | NO_AUDIO
  | TOO_SHORT
  | TOO_LARGE
  | SILENCE
  | CONFIG_ERROR
  | RATE_LIMIT
  | SERVICE_ERROR
  | INVALID_REQUEST
  | INVALID_API_KEY
  | FORBIDDEN
  | CONTENT_BLOCKED
  | TIMEOUT
  | NETWORK_ERROR
  | WHISPER_NOT_AVAILABLE
  | WHISPER_ERROR
  | WHISPER_EMPTY
  | PARSE_ERROR
  | INVALID_RESPONSE
  | TRANSCRIPTION_FAILED
  | UNKNOWN_ERROR
  | API_ERROR
deriving DecidableEq, Repr

/-- The closed ErrorKind taxonomy exactly as enumerated in spec §7 (this
definition follows the spec's words, for comparison with the code). -/
def specErrorKinds : List ErrType :=
  [ErrType.NO_AUDIO, ErrType.TOO_SHORT, ErrType.TOO_LARGE, ErrType.SILENCE,
   ErrType.CONFIG_ERROR, ErrType.RATE_LIMIT, ErrType.SERVICE_ERROR,
   ErrType.INVALID_REQUEST, ErrType.INVALID_API_KEY, ErrType.FORBIDDEN,
   ErrType.CONTENT_BLOCKED, ErrType.TIMEOUT, ErrType.NETWORK_ERROR,
   ErrType.WHISPER_NOT_AVAILABLE, ErrType.WHISPER_ERROR, ErrType.WHISPER_EMPTY,
   ErrType.PARSE_ERROR, ErrType.INVALID_RESPONSE, ErrType.TRANSCRIPTION_FAILED,
   ErrType.UNKNOWN_ERROR]

/-- `transcribeWithGemini`'s mapping of a non-2xx HTTP status:
`429 → RATE_LIMIT`, `>= 500 → SERVICE_ERROR`, anything else → `API_ERROR`. -/
def geminiStatusErrType (status : Nat) : ErrType :=
  if status = 429 then ErrType.RATE_LIMIT
  else if 500 ≤ status then ErrType.SERVICE_ERROR
  else ErrType.API_ERROR

/-- `transcribeWithGroq`'s mapping of any non-2xx HTTP status: always the
generic `API_ERROR`. -/
def groqStatusErrType (_status : Nat) : ErrType := ErrType.API_ERROR

/-! ## The transcription orchestrator (`transcribe`) -/

/-- The two prompt variants of the Gemini adapter. -/
inductive PromptVariant where
  | standard
  | fallback
deriving DecidableEq, Repr

/-- Prompt selection inside `transcribeWithGemini`:
`(useFallbackPrompt || attempt > 2) ? FALLBACK_TRANSCRIPTION_PROMPT :
TRANSCRIPTION_PROMPT`. -/
def geminiPromptChoice (attempt : Nat) (useFallbackPrompt : Bool) : PromptVariant :=
  if useFallbackPrompt || decide (2 < attempt) then PromptVariant.fallback
  else PromptVariant.standard

/-- The orchestrator's flag for the Gemini call:
`const useFallbackPrompt = attempt > 1`. -/
def orchUseFallback (attempt : Nat) : Bool := decide (1 < attempt)

/-- The prompt variant actually issued on general-tier attempt `attempt`. -/
def orchPromptVariant (attempt : Nat) : PromptVariant :=
  geminiPromptChoice attempt (orchUseFallback attempt)

/-- Provider identifiers (`method` strings of the source). -/
inductive Method where
  | groqWhisper
  | gemini
  | whisperLocal
deriving DecidableEq, Repr

/-- The orchestrator's result record (`duration` and the observability-only
`attempts` log are not modelled; the event trace below captures invocation
order instead). -/
structure TResult where
  text : List Char
  rawText : List Char
  confidence : JQ
  method : Method
  fallback : Bool := false
  noSpeech : Bool := false
deriving DecidableEq, Repr

/-- Outcome of one provider invocation (the network/process behaviour is
abstracted as an oracle; `success` carries the text the provider function
returns, `failure` the `type` of the thrown error record). -/
inductive POutcome where
  | success (text : List Char)
  | failure (e : ErrType)

/-- Provider oracles for one orchestration run: the Groq call, the Gemini call
per attempt number, and the local Whisper call. -/
structure Oracles where
  groq : POutcome
  gemini : Nat → POutcome
  whisper : POutcome

/-- The configuration the orchestrator reads (`CONFIG` in the source): which
API keys are present, the Whisper fallback switches, and the retry knobs
(`maxRetries = 3`, `retryDelayBase = 1000`, `confidenceThreshold = 0.6` in the
deployed defaults). -/
structure OrchConfig where
  groqKey : Bool
  geminiKey : Bool
  useWhisperFallback : Bool
  whisperAvailable : Bool
  maxRetries : Nat
  retryDelayBase : Nat
  confidenceThreshold : JQ

/-- Events observable during a run: provider invocations and backoff sleeps. -/
inductive Ev where
  | groqCall
  | geminiCall (variant : PromptVariant)
  | sleep (ms : Nat)
  | whisperCall
deriving DecidableEq, Repr

/-- The backoff delay after attempt `attempt`:
`Math.min(CONFIG.retryDelayBase * Math.pow(2, attempt - 1), 8000)`. -/
def retryDelay (base attempt : Nat) : Nat := min (base * 2 ^ (attempt - 1)) 8000

/-- `quality.estimatedDuration || 1` (JavaScript `||`: `0` is falsy). -/
def durOr1 (q : AudioQuality) : JQ :=
  if q.estimatedDuration.isZero then 1 else q.estimatedDuration

/-- Full-string match of `/^\[\s*WORD\s*\]$/i` for the sentinel cleanup
(`word` is given in lower case with single spaces). -/
def isSentinel (word : String) (t : List Char) : Bool :=
  t.head? == some '[' && t.getLast? == some ']' &&
    ((jsTrim ((t.drop 1).dropLast)).map lowerAscii == word.data)

/-- The final cleanup pass of `transcribe`: for a non-empty text, strip the
`[no speech detected]` and `[silence]` sentinels and trim; if the text became
empty, force `confidence = 0.1` and set `noSpeech`.  A result whose text is
already empty is returned unchanged (the `if (result.text)` guard). -/
def finalizeResult (r : TResult) : TResult :=
  if r.text.isEmpty then r
  else
    let t1 := if isSentinel "no speech detected" r.text then [] else r.text
    let t2 := if isSentinel "silence" t1 then [] else t1
    let t3 := jsTrim t2
    if t3.isEmpty then { r with text := t3, confidence := 1 / 10, noSpeech := true }
    else { r with text := t3 }

/-- State threaded through the tiers: current best result, last error, trace. -/
structure RunState where
  result : Option TResult
  lastError : Option ErrType
  trace : List Ev

/-- Outcome of a tier: an early `return` from `transcribe` (with the trace so
far) or continuation with the updated state. -/
inductive TierOut where
  | early (r : TResult) (trace : List Ev)
  | cont (st : RunState)

/-- The Groq (fast) tier: one attempt if a key is configured; a successful
call is accepted immediately when its corrected text is non-empty
(`if (result.text) return result`, skipping the final cleanup); an empty text
keeps the result (confidence `0.95`) and falls through; a failure records
`lastError`. -/
def groqPhase (cfg : OrchConfig) (orc : Oracles) : TierOut :=
  if cfg.groqKey then
    match orc.groq with
    | POutcome.success text =>
        let r : TResult :=
          { text := applyCorrectionsL text, rawText := text,
            confidence := 19 / 20, method := Method.groqWhisper }
        if r.text.isEmpty then
          TierOut.cont { result := some r, lastError := none, trace := [Ev.groqCall] }
        else TierOut.early r [Ev.groqCall]
    | POutcome.failure e =>
        TierOut.cont { result := none, lastError := some e, trace := [Ev.groqCall] }
  else TierOut.cont { result := none, lastError := none, trace := [] }

/-- The Gemini (general) retry loop, one recursive step per attempt
(`rem` = remaining loop iterations, invoked with `cfg.maxRetries`).  A missing
key makes `transcribeWithGemini` throw `CONFIG_ERROR` before any network call,
which the non-retryable check turns into an immediate break.  On success, the
result is recorded, accepted early when `confidence >= threshold`, and
otherwise retried after the backoff sleep; a non-retryable failure
(`INVALID_REQUEST`, `CONFIG_ERROR`, `CONTENT_BLOCKED`) breaks the loop. -/
def geminiPhase (cfg : OrchConfig) (orc : Oracles) (q : AudioQuality) :
    Nat → Nat → RunState → TierOut
  | 0, _, st => TierOut.cont st
  | rem + 1, attempt, st =>
      if cfg.geminiKey then
        let st := { st with trace := st.trace ++ [Ev.geminiCall (orchPromptVariant attempt)] }
        match orc.gemini attempt with
        | POutcome.success text =>
            let conf := calculateConfidence q text (durOr1 q)
            let r : TResult :=
              { text := applyCorrectionsL text, rawText := text,
                confidence := conf, method := Method.gemini }
            if cfg.confidenceThreshold ≤ conf then TierOut.early r st.trace
            else if attempt < cfg.maxRetries then
              geminiPhase cfg orc q rem (attempt + 1)
                { st with
                    result := some r
                    trace := st.trace ++ [Ev.sleep (retryDelay cfg.retryDelayBase attempt)] }
            else TierOut.cont { st with result := some r }
        | POutcome.failure e =>
            let st := { st with lastError := some e }
            if e = ErrType.INVALID_REQUEST ∨ e = ErrType.CONFIG_ERROR ∨
                e = ErrType.CONTENT_BLOCKED then TierOut.cont st
            else if attempt < cfg.maxRetries then
              geminiPhase cfg orc q rem (attempt + 1)
                { st with trace := st.trace ++ [Ev.sleep (retryDelay cfg.retryDelayBase attempt)] }
            else TierOut.cont st
      else
        TierOut.cont { st with lastError := some ErrType.CONFIG_ERROR }

/-- The local Whisper tier: runs only when enabled, available, and the general
tier produced nothing or stayed below the threshold.  The provider-specific
confidence heuristic (base `0.9`, `0.75` for implausible speaking rate, `-0.1`
for poor quality) and the acceptance rule (`!result ||
whisperConfidence > result.confidence || result.confidence < 0.4`). -/
def whisperPhase (cfg : OrchConfig) (orc : Oracles) (q : AudioQuality)
    (st : RunState) : RunState :=
  let lowOrNone :=
    match st.result with
    | none => true
    | some r => decide (r.confidence < cfg.confidenceThreshold)
  if cfg.useWhisperFallback && cfg.whisperAvailable && lowOrNone then
    let st := { st with trace := st.trace ++ [Ev.whisperCall] }
    match orc.whisper with
    | POutcome.success text =>
        let words := jsSplitLenRaw text
        let wps := JQ.ofNat words / durOr1 q
        let wc1 : JQ := if wps < 1 / 2 ∨ 7 < wps then 75 / 100 else 9 / 10
        let wConf := if q.quality = QTier.poor then wc1 - 1 / 10 else wc1
        let shouldUse :=
          match st.result with
          | none => true
          | some r => decide (r.confidence < wConf) || decide (r.confidence < 4 / 10)
        if shouldUse then
          { st with
              result := some
                { text := applyCorrectionsL text, rawText := text,
                  confidence := wConf, method := Method.whisperLocal, fallback := true } }
        else st
    | POutcome.failure _ => st
  else st

/-- Outcome of a whole run: the returned result or the thrown error kind. -/
inductive RunOutcome where
  | ok (r : TResult)
  | err (e : ErrType)
deriving DecidableEq, Repr

/-- A completed orchestration run: outcome plus the event trace. -/
structure RunOut where
  outcome : RunOutcome
  trace : List Ev
deriving DecidableEq, Repr

/-- The `transcribe` orchestrator: quality analysis (no validation — the
source's `transcribe` never calls `validateAudio` and performs no silence
check), then Groq → Gemini-with-retries → local Whisper, then
`throw lastError || TRANSCRIPTION_FAILED` when nothing produced a result, and
the final cleanup pass otherwise.  Early accepts (`return result` inside the
tiers) skip the final cleanup. -/
def transcribeRun (cfg : OrchConfig) (orc : Oracles) (buffer : List Nat) : RunOut :=
  let q := analyzeAudioQuality buffer
  match groqPhase cfg orc with
  | TierOut.early r tr => { outcome := RunOutcome.ok r, trace := tr }
  | TierOut.cont st0 =>
      match geminiPhase cfg orc q cfg.maxRetries 1 st0 with
      | TierOut.early r tr => { outcome := RunOutcome.ok r, trace := tr }
      | TierOut.cont st1 =>
          let st2 := whisperPhase cfg orc q st1
          match st2.result with
          | none =>
              { outcome := RunOutcome.err (st2.lastError.getD ErrType.TRANSCRIPTION_FAILED),
                trace := st2.trace }
          | some r => { outcome := RunOutcome.ok (finalizeResult r), trace := st2.trace }

/-- Number of Gemini calls in a trace. -/
def countGemini (tr : List Ev) : Nat :=
  tr.countP (fun e => match e with | Ev.geminiCall _ => true | _ => false)

/-- Number of provider invocations (Groq, Gemini or Whisper) in a trace. -/
def providerCalls (tr : List Ev) : Nat :=
  tr.countP (fun e => match e with | Ev.sleep _ => false | _ => true)

/-- The prompt variants of the Gemini calls of a trace, in order. -/
def geminiVariants (tr : List Ev) : List PromptVariant :=
  tr.filterMap (fun e => match e with | Ev.geminiCall v => some v | _ => none)

/-- The backoff sleeps of a trace, in order. -/
def sleepsOf (tr : List Ev) : List Nat :=
  tr.filterMap (fun e => match e with | Ev.sleep ms => some ms | _ => none)

/-! ## A bounded matcher with certified answers

`mB r prev s` sees only the prefix `s` of an arbitrarily continued string and
returns `(known, complete)`: `known` is a prefix of `mlist r prev (s ++ rest)`
for every `rest`, and when `complete` is `true` it is all of it.  It supports
the chunk-decomposition argument used to evaluate `applyCorrections` on a
parametric family of inputs (claim C9). -/

/-- Combine the continuations of the known options of the first element of a
sequence: for each first-part option the second part's known options are
shifted and capture-merged; the combination stops being complete at the first
incomplete continuation. -/
def seqComb (f : Nat × List Char → List (Nat × List Char) × Bool) :
    List (Nat × List Char) → Bool → List (Nat × List Char) × Bool
  | [], ca => ([], ca)
  | kc :: more, ca =>
      let r1 := f kc
      let here := r1.1.map (fun kc2 => (kc.1 + kc2.1, pickCap kc.2 kc2.2))
      if r1.2 then
        let rest := seqComb f more ca
        (here ++ rest.1, rest.2)
      else (here, false)

/-- The bounded matcher. -/
def mB : RE → Option Char → List Char → List (Nat × List Char) × Bool
  | .eps, _, _ => ([(0, [])], true)
  | .lit _, _, [] => ([], false)
  | .lit c, _, a :: _ => (if a == c then [(1, [])] else [], true)
  | .litCI _, _, [] => ([], false)
  | .litCI c, _, a :: _ => (if ciEq a c then [(1, [])] else [], true)
  | .cls _, _, [] => ([], false)
  | .cls p, _, a :: _ => (if p a then [(1, [])] else [], true)
  | .ws1, _, s =>
      if wsCount s = s.length then ([], false)
      else ((descFrom1 (wsCount s)).map (fun k => (k, [])), true)
  | .ws0, _, s =>
      if wsCount s = s.length then ([], false)
      else ((descFrom0 (wsCount s)).map (fun k => (k, [])), true)
  | .anyStar, _, _ => ([], false)
  | .wb, _, [] => ([], false)
  | .wb, prev, a :: _ =>
      (if boundaryOk prev (some a) then [(0, [])] else [], true)
  | .seq a b, prev, s =>
      let ra := mB a prev s
      seqComb (fun kc => mB b (prevAfter prev kc.1 s) (s.drop kc.1)) ra.1 ra.2
  | .alt a b, prev, s =>
      let ra := mB a prev s
      if ra.2 then
        let rb := mB b prev s
        (ra.1 ++ rb.1, rb.2)
      else (ra.1, false)
  | .opt a, prev, s =>
      let ra := mB a prev s
      if ra.2 then (ra.1 ++ [(0, [])], true) else (ra.1, false)
  | .grp a, prev, s =>
      let ra := mB a prev s
      (ra.1.map (fun kc => (kc.1, s.take kc.1)), ra.2)
  | .look a, prev, s =>
      let ra := mB a prev s
      if ra.1.isEmpty then (if ra.2 then ([], true) else ([], false))
      else ([(0, [])], true)

/-- The character before the continuation point after scanning `chunk`. -/
def lastPrev (prev : Option Char) (chunk : List Char) : Option Char :=
  match chunk.getLast? with
  | some c => some c
  | none => prev

/-- Certified scan of one chunk with one character (`h`) of lookahead into the
continuation: returns the transformed chunk when every match attempt inside
the chunk is determined by `chunk ++ [h]`, no match is empty, and no match
consumes past the chunk. -/
def scanChunkB (r : Rule) : Nat → Option Char → List Char → Char → Option (List Char)
  | 0, _, _, _ => none
  | _ + 1, _, [], _ => some []
  | fuel + 1, prev, c :: cs, h =>
      let m := mB r.pat prev (c :: cs ++ [h])
      match m.1 with
      | [] =>
          if m.2 then (scanChunkB r fuel (some c) cs h).map (fun out => c :: out)
          else none
      | kc :: _ =>
          if kc.1 = 0 then none
          else if kc.1 ≤ cs.length + 1 then
            (scanChunkB r fuel (prevAfter prev kc.1 (c :: cs)) (List.drop kc.1 (c :: cs)) h).map
              (fun out => instParts r.tmpl kc.2 ++ out)
          else none

/-- `n` copies of a chunk. -/
def repChunk : Nat → List Char → List Char
  | 0, _ => []
  | n + 1, ch => ch ++ repChunk n ch

/-- Certificate that rule `r` maps every string `repChunk n ch ++ tl` to
`repChunk n ch' ++ tl'`: the chunk scan is determined with one-character
lookahead `'d'` for both possible preceding characters, the tail scan is
independent of the preceding character, chunks start with `'d'` and end with
`' '`, and the tail starts with `'d'`. -/
def ruleStep (r : Rule) (st : List Char × List Char) : Option (List Char × List Char) :=
  match scanChunkB r (st.1.length + 1) none st.1 'd',
        scanChunkB r (st.1.length + 1) (some ' ') st.1 'd' with
  | some o1, some o2 =>
      let t1 := scanR r none st.2
      let t2 := scanR r (some ' ') st.2
      if o1 = o2 ∧ t1 = t2 ∧ st.1.head? = some 'd' ∧ st.2.head? = some 'd' ∧
          st.1.getLast? = some ' ' then some (o1, t1)
      else none
  | _, _ => none

/-- Iterate `ruleStep` over a rule list. -/
def pipeCert : List Rule → (List Char × List Char) → Option (List Char × List Char)
  | [], st => some st
  | r :: rs, st => (ruleStep r st).bind (pipeCert rs)

/-- The chunk `dont ` of the C9 witness family. -/
def donChunk : List Char := ['d', 'o', 'n', 't', ' ']

/-- The final word `dont` of the C9 witness family. -/
def donTail : List Char := ['d', 'o', 'n', 't']

/-- The corrected chunk (the contraction with its apostrophe and a space). -/
def donOutChunk : List Char := 'd' :: 'o' :: 'n' :: apos :: 't' :: [' ']

/-- The corrected final word. -/
def donOutTail : List Char := 'd' :: 'o' :: 'n' :: apos :: ['t']

/-- Input family for C9: `n` copies of `dont ` followed by `dont`
(length `5n + 4`). -/
def famIn (n : Nat) : List Char := repChunk n donChunk ++ donTail

/-- Corrected form of `famIn n` (length `6n + 5`). -/
def famOut (n : Nat) : List Char := repChunk n donOutChunk ++ donOutTail

/-- Total length of the literal parts of a replacement template. -/
def tmplConst (ps : List TPart) : Nat :=
  (ps.map (fun p => match p with | TPart.str cs => cs.length | TPart.group1 => 0)).sum

/-- Number of `$1` occurrences in a replacement template. -/
def numG (ps : List TPart) : Nat :=
  (ps.map (fun p => match p with | TPart.str _ => 0 | TPart.group1 => 1)).sum

/-- Per-rule growth factor: each consumed character produces at most this many
output characters during one scan. -/
def rBound (r : Rule) : Nat := tmplConst r.tmpl + numG r.tmpl + 1

/-! ## Concrete buffers, configurations and oracles for the scenarios -/

/-- An 8-byte all-zero buffer: sampled zero fraction `1`, mostly silent,
`poor` tier, estimated duration `0`. -/
def zeros8 : List Nat := List.replicate 8 0

/-- An 8-byte alternating buffer: zero fraction `0`, `good` tier, variance
`10000` (entropy `100 > 30`). -/
def alt8 : List Nat := [10, 210, 10, 210, 10, 210, 10, 210]

/-- A 1000-byte all-zero buffer (above the validator's minimum size). -/
def silent1000 : List Nat := List.replicate 1000 0

/-- A 500-byte all-zero buffer (below the validator's minimum size and
entirely silent). -/
def shortBuf : List Nat := List.replicate 500 0

/-- Configuration with only the Groq key present (deployed retry defaults),
local Whisper unavailable. -/
def cfgGroq : OrchConfig := ⟨true, false, true, false, 3, 1000, 6 / 10⟩

/-- Configuration with only the Gemini key present (deployed retry defaults),
local Whisper unavailable. -/
def cfgGem : OrchConfig := ⟨false, true, true, false, 3, 1000, 6 / 10⟩

/-- Groq returns the text `hi`. -/
def orcGroqHi : Oracles :=
  ⟨POutcome.success "hi".data, fun _ => POutcome.failure ErrType.CONFIG_ERROR,
   POutcome.failure ErrType.WHISPER_NOT_AVAILABLE⟩

/-- Groq returns the empty text. -/
def orcGroqEmpty : Oracles :=
  ⟨POutcome.success [], fun _ => POutcome.failure ErrType.CONFIG_ERROR,
   POutcome.failure ErrType.WHISPER_NOT_AVAILABLE⟩

/-- Gemini returns the text `hi` on every attempt. -/
def orcGemHi : Oracles :=
  ⟨POutcome.failure ErrType.CONFIG_ERROR, fun _ => POutcome.success "hi".data,
   POutcome.failure ErrType.WHISPER_NOT_AVAILABLE⟩

/-- Gemini fails with `e` on every attempt. -/
def orcGemFail (e : ErrType) : Oracles :=
  ⟨POutcome.failure ErrType.CONFIG_ERROR, fun _ => POutcome.failure e,
   POutcome.failure ErrType.WHISPER_NOT_AVAILABLE⟩

/-- Gemini fails with `RATE_LIMIT` on attempts 1 and 2, then succeeds with
`hi`. -/
def orcGemRL : Oracles :=
  ⟨POutcome.failure ErrType.CONFIG_ERROR,
   fun n => if n ≤ 2 then POutcome.failure ErrType.RATE_LIMIT
            else POutcome.success "hi".data,
   POutcome.failure ErrType.WHISPER_NOT_AVAILABLE⟩

end Voice

namespace Voice

/-! # Theorems -/

set_option maxRecDepth 1000000
set_option maxHeartbeats 16000000

/-- `zCount` never exceeds `sSize` (at most one sampled byte per loop index). -/
theorem zCount_le_sSize (b : List Nat) : zCount b ≤ sSize b := by
  have h1 : (sampledBytes b).length ≤ sSize b := by
    unfold sampledBytes
    refine le_trans (List.length_filterMap_le _ _) ?_
    simp
  exact le_trans (List.count_le_length _ _) h1

theorem shortBuf_length : shortBuf.length = 500 := by
  show (List.replicate 500 0).length = 500
  rw [List.length_replicate]

theorem silent1000_length : silent1000.length = 1000 := by
  show (List.replicate 1000 0).length = 1000
  rw [List.length_replicate]

theorem get?_replicate_zero : ∀ {n k : Nat}, k < n → (List.replicate n 0).get? k = some 0 := by
  intro n
  induction n with
  | zero => intro k h; omega
  | succ m ih =>
      intro k h
      cases k with
      | zero => rfl
      | succ j =>
          show (List.replicate m 0).get? j = some 0
          exact ih (by omega)

theorem filterMap_const_zero {f : Nat → Option Nat} :
    ∀ {l : List Nat}, (∀ i ∈ l, f i = some 0) →
      l.filterMap f = List.replicate l.length 0 := by
  intro l
  induction l with
  | nil => intro _; rfl
  | cons a t ih =>
      intro h
      rw [List.filterMap_cons, h a (List.mem_cons_self a t)]
      simp only [List.length_cons, List.replicate_succ]
      rw [ih (fun i hi => h i (List.mem_cons_of_mem a hi))]

/-- On an all-zero buffer every sampled byte is `0`. -/
theorem sampledBytes_replicate_zero (n : Nat) :
    sampledBytes (List.replicate n 0) =
      List.replicate (sSize (List.replicate n 0)) 0 := by
  unfold sampledBytes
  have hlen : (List.replicate n 0).length = n := by simp
  rw [hlen]
  have hall : ∀ i ∈ List.range (sSize (List.replicate n 0)),
      (if i * (n / sSize (List.replicate n 0)) < n
        then (List.replicate n 0).get? (i * (n / sSize (List.replicate n 0)))
        else none) = some 0 := by
    intro i hi
    split_ifs with hlt
    · exact get?_replicate_zero hlt
    · exfalso
      have hi' : i < sSize (List.replicate n 0) := List.mem_range.mp hi
      have hs : sSize (List.replicate n 0) = min n 2048 := by rw [sSize, hlen]
      have hn : 0 < n := by
        rcases Nat.eq_zero_or_pos n with h0 | h0
        · rw [hs, h0] at hi'; simp at hi'
        · exact h0
      have hsle : sSize (List.replicate n 0) ≤ n := by rw [hs]; omega
      have hs1 : 1 ≤ sSize (List.replicate n 0) := by rw [hs]; omega
      have hstep : 1 ≤ n / sSize (List.replicate n 0) :=
        Nat.one_le_div_iff hs1 |>.mpr hsle
      have hbound : sSize (List.replicate n 0) * (n / sSize (List.replicate n 0)) ≤ n := by
        rw [Nat.mul_comm]
        exact Nat.div_mul_le_self n _
      have : i * (n / sSize (List.replicate n 0)) < n := by
        have h1 : i + 1 ≤ sSize (List.replicate n 0) := hi'
        have h2 : (i + 1) * (n / sSize (List.replicate n 0)) ≤
            sSize (List.replicate n 0) * (n / sSize (List.replicate n 0)) :=
          Nat.mul_le_mul_right _ h1
        rw [Nat.add_mul, Nat.one_mul] at h2
        omega
      exact hlt this
  rw [filterMap_const_zero hall, List.length_range]

/-- On an all-zero buffer the sampled zero count equals the sample size. -/
theorem zCount_replicate_zero (n : Nat) :
    zCount (List.replicate n 0) = sSize (List.replicate n 0) := by
  rw [zCount, sampledBytes_replicate_zero]
  simp

/-- A non-empty all-zero buffer is mostly silence. -/
theorem silence_replicate (n : Nat) (h : 1 ≤ n) :
    (analyzeAudioQuality (List.replicate n 0)).isMostlySilence = true := by
  have hz := zCount_replicate_zero n
  have hs : 1 ≤ sSize (List.replicate n 0) := by
    rw [sSize, List.length_replicate]
    omega
  simp only [analyzeAudioQuality, decide_eq_true_eq]
  rw [hz]
  omega

/-- The Groq-key scenario on the mostly-silent 8-zero buffer, evaluated once:
one Groq call, early accept of `hi` with the fast-tier confidence `0.95`. -/
theorem runGroqHi :
    transcribeRun cfgGroq orcGroqHi zeros8 =
      ⟨RunOutcome.ok ⟨"hi".data, "hi".data, 19 / 20, Method.groqWhisper, false, false⟩,
       [Ev.groqCall]⟩ := by
  decide

/-- The Groq-key scenario with an empty provider text, evaluated once: the
empty result falls through to the end and is returned with confidence
`0.95` and no `noSpeech` marker. -/
theorem runGroqEmptyText :
    transcribeRun cfgGroq orcGroqEmpty zeros8 =
      ⟨RunOutcome.ok ⟨[], [], 19 / 20, Method.groqWhisper, false, false⟩,
       [Ev.groqCall]⟩ := by
  decide

/-- The Gemini-key scenario succeeding with `hi` on every attempt, evaluated
once: the poor-quality buffer keeps the confidence at `0` below the `0.6`
threshold, so all 3 attempts run with breaks of 1000ms and 2000ms. -/
theorem runGemHi :
    transcribeRun cfgGem orcGemHi zeros8 =
      ⟨RunOutcome.ok ⟨"hi".data, "hi".data, 0, Method.gemini, false, false⟩,
       [Ev.geminiCall PromptVariant.standard, Ev.sleep 1000,
        Ev.geminiCall PromptVariant.fallback, Ev.sleep 2000,
        Ev.geminiCall PromptVariant.fallback]⟩ := by
  decide

/-- The Gemini-key scenario on the alternating buffer with `RATE_LIMIT` on
attempts 1 and 2, evaluated once: sleeps of 1000ms and 2000ms, success on
attempt 3. -/
theorem runGemRL :
    transcribeRun cfgGem orcGemRL alt8 =
      ⟨RunOutcome.ok ⟨"hi".data, "hi".data, ⟨144000, 160000⟩, Method.gemini, false, false⟩,
       [Ev.geminiCall PromptVariant.standard, Ev.sleep 1000,
        Ev.geminiCall PromptVariant.fallback, Ev.sleep 2000,
        Ev.geminiCall PromptVariant.fallback]⟩ := by
  decide

/-- The Gemini-key scenario failing with `INVALID_API_KEY` on every attempt,
evaluated once: all 3 attempts run before the error is rethrown. -/
theorem runGemInvalidKey :
    transcribeRun cfgGem (orcGemFail ErrType.INVALID_API_KEY) zeros8 =
      ⟨RunOutcome.err ErrType.INVALID_API_KEY,
       [Ev.geminiCall PromptVariant.standard, Ev.sleep 1000,
        Ev.geminiCall PromptVariant.fallback, Ev.sleep 2000,
        Ev.geminiCall PromptVariant.fallback]⟩ := by
  decide

/-- The Gemini-key scenario failing with `FORBIDDEN` on every attempt,
evaluated once: all 3 attempts run before the error is rethrown. -/
theorem runGemForbidden :
    transcribeRun cfgGem (orcGemFail ErrType.FORBIDDEN) zeros8 =
      ⟨RunOutcome.err ErrType.FORBIDDEN,
       [Ev.geminiCall PromptVariant.standard, Ev.sleep 1000,
        Ev.geminiCall PromptVariant.fallback, Ev.sleep 2000,
        Ev.geminiCall PromptVariant.fallback]⟩ := by
  decide

/-- The Gemini-key scenario failing with `INVALID_REQUEST`, evaluated once:
the loop breaks after one call. -/
theorem runGemInvalidReq :
    transcribeRun cfgGem (orcGemFail ErrType.INVALID_REQUEST) zeros8 =
      ⟨RunOutcome.err ErrType.INVALID_REQUEST,
       [Ev.geminiCall PromptVariant.standard]⟩ := by
  decide

/-- The Gemini-key scenario failing with `CONFIG_ERROR`, evaluated once:
the loop breaks after one call. -/
theorem runGemConfigErr :
    transcribeRun cfgGem (orcGemFail ErrType.CONFIG_ERROR) zeros8 =
      ⟨RunOutcome.err ErrType.CONFIG_ERROR,
       [Ev.geminiCall PromptVariant.standard]⟩ := by
  decide

/-- The Gemini-key scenario failing with `CONTENT_BLOCKED`, evaluated once:
the loop breaks after one call. -/
theorem runGemBlocked :
    transcribeRun cfgGem (orcGemFail ErrType.CONTENT_BLOCKED) zeros8 =
      ⟨RunOutcome.err ErrType.CONTENT_BLOCKED,
       [Ev.geminiCall PromptVariant.standard]⟩ := by
  decide

/-- C10: an `AudioQuality` with `isMostlySilence` always has the `poor`
tier (the silence threshold `0.95` exceeds the `fair` bound `0.5`), and the
tier is always exactly one of `good`, `fair`, `poor`. -/
theorem silence_implies_poor_tier (b : List Nat) :
    ((analyzeAudioQuality b).isMostlySilence = true →
      (analyzeAudioQuality b).quality = QTier.poor) ∧
    ((analyzeAudioQuality b).quality = QTier.good ∨
      (analyzeAudioQuality b).quality = QTier.fair ∨
      (analyzeAudioQuality b).quality = QTier.poor) := by
  have hz := zCount_le_sSize b
  constructor
  · intro h
    have h' : 19 * sSize b < 20 * zCount b := by
      simpa [analyzeAudioQuality] using h
    simp only [analyzeAudioQuality]
    split_ifs with h1 h2
    · omega
    · omega
    · rfl
  · simp only [analyzeAudioQuality]
    split_ifs <;> simp

/-- Witness for C10 at the concrete all-zero buffer. -/
theorem silence_implies_poor_tier_witness :
    (analyzeAudioQuality zeros8).isMostlySilence = true ∧
    (analyzeAudioQuality zeros8).quality = QTier.poor :=
  ⟨by decide, (silence_implies_poor_tier zeros8).1 (by decide)⟩

/-- C7: the validator's gates apply in the order empty → size-minimum →
size-maximum → silence, so any buffer of between 1 and 999 bytes is rejected
as `TOO_SHORT` regardless of its content. -/
theorem validate_tooShort_before_silence (b : List Nat)
    (h1 : 1 ≤ b.length) (h2 : b.length < 1000) :
    validateAudio b = ValidateResult.tooShort := by
  have hne : b.isEmpty = false := by
    cases b with
    | nil => simp at h1
    | cons c s => rfl
  simp [validateAudio, hne, h2]

/-- Witness for C7 at a concrete 500-byte all-zero buffer (which would sniff
as mostly silent if the silence gate came first). -/
theorem validate_tooShort_before_silence_witness :
    validateAudio shortBuf = ValidateResult.tooShort ∧
    19 * sSize shortBuf < 20 * zCount shortBuf :=
  ⟨validate_tooShort_before_silence shortBuf (by rw [shortBuf_length]; omega)
    (by rw [shortBuf_length]; omega),
   by
     have hz : zCount shortBuf = sSize shortBuf := zCount_replicate_zero 500
     have hs : 1 ≤ sSize shortBuf := by
       rw [sSize, shortBuf_length]
       omega
     rw [hz]
     omega⟩

/-- C1 counterexample: a buffer whose `AudioQuality` has `isMostlySilence`
still reaches a provider — the source's `transcribe` performs no silence
check, so with a Groq key configured the mostly-silent 8-zero buffer produces
exactly one provider call instead of the zero calls the claim demands. -/
theorem transcribe_no_silence_shortcircuit :
    (analyzeAudioQuality zeros8).isMostlySilence = true ∧
    providerCalls (transcribeRun cfgGroq orcGroqHi zeros8).trace = 1 := by
  refine ⟨by decide, ?_⟩
  rw [runGroqHi]
  decide

/-- C1 amended: the silence short-circuit lives in `validateAudio` (the
caller-side gate), not in `transcribe`: a buffer of admissible size whose
quality has `isMostlySilence` is rejected as `SILENCE` there, before any
provider could be handed the buffer. -/
theorem validateAudio_silence_gate (b : List Nat)
    (h1 : 1000 ≤ b.length) (h2 : b.length ≤ 10 * 1024 * 1024)
    (h3 : (analyzeAudioQuality b).isMostlySilence = true) :
    validateAudio b = ValidateResult.silence (analyzeAudioQuality b) := by
  have hne : b.isEmpty = false := by
    cases b with
    | nil => simp at h1
    | cons c s => rfl
  have h2' : ¬ b.length < 1000 := by omega
  have h3' : ¬ 10 * 1024 * 1024 < b.length := by omega
  simp [validateAudio, hne, h2', h3', h3]

/-- Witness for the amended C1 at the 1000-byte all-zero buffer. -/
theorem validateAudio_silence_gate_witness :
    validateAudio silent1000 = ValidateResult.silence (analyzeAudioQuality silent1000) :=
  validateAudio_silence_gate silent1000 (by rw [silent1000_length])
    (by rw [silent1000_length]; omega)
    (silence_replicate 1000 (by omega))

/-- C2 counterexample: in a three-attempt general-tier run the prompt variants
are `[standard, fallback, fallback]` — the second attempt already uses the
terse fallback prompt, not the `[standard, standard, fallback]` of the
claim. -/
theorem promptVariant_attempt2_fallback :
    geminiVariants (transcribeRun cfgGem orcGemHi zeros8).trace =
      [PromptVariant.standard, PromptVariant.fallback, PromptVariant.fallback] ∧
    geminiVariants (transcribeRun cfgGem orcGemHi zeros8).trace ≠
      [PromptVariant.standard, PromptVariant.standard, PromptVariant.fallback] := by
  have h : geminiVariants (transcribeRun cfgGem orcGemHi zeros8).trace =
      [PromptVariant.standard, PromptVariant.fallback, PromptVariant.fallback] := by
    rw [runGemHi]
    decide
  exact ⟨h, by rw [h]; decide⟩

/-- C2 amended: the orchestrator passes `useFallbackPrompt = attempt > 1` to
the Gemini adapter, so only attempt 1 uses the standard prompt and every
later attempt uses the fallback prompt; a three-attempt run issues
`[standard, fallback, fallback]`. -/
theorem promptVariant_rule :
    (∀ n : Nat, orchPromptVariant (n + 1) =
      if n = 0 then PromptVariant.standard else PromptVariant.fallback) ∧
    geminiVariants (transcribeRun cfgGem orcGemHi zeros8).trace =
      [PromptVariant.standard, PromptVariant.fallback, PromptVariant.fallback] := by
  constructor
  · intro n
    cases n with
    | zero => rfl
    | succ m =>
        have h : 1 < m + 2 := by omega
        simp [orchPromptVariant, orchUseFallback, geminiPromptChoice, h]
  · rw [runGemHi]
    decide

/-- C3 counterexample: a fast-tier (Groq) result with empty text falls through
every guard — the returned result has empty text but keeps the provider
confidence `0.95` and an unset `noSpeech`, contradicting the claimed
invariant `text = "" → confidence ≤ 0.1 ∧ noSpeech`. -/
theorem emptyText_confidence_violation :
    (transcribeRun cfgGroq orcGroqEmpty zeros8).outcome = RunOutcome.ok
      { text := [], rawText := [], confidence := 19 / 20, method := Method.groqWhisper } ∧
    ¬ ((19 : JQ) / 20 ≤ 1 / 10) := by
  constructor
  · rw [runGroqEmptyText]
  · decide

/-- C3 amended: the final cleanup guard only covers texts that become empty
during cleanup: if a result reaches `finalizeResult` with non-empty text and
leaves with empty text, then its confidence is forced to `0.1` and `noSpeech`
is set.  (A result whose text is already empty — e.g. a fast-tier empty text —
bypasses the guard and keeps its provider confidence, as the counterexample
shows.) -/
theorem finalize_empty_text_marks_noSpeech (r : TResult)
    (h1 : r.text ≠ []) (h2 : (finalizeResult r).text = []) :
    (finalizeResult r).confidence = 1 / 10 ∧ (finalizeResult r).noSpeech = true := by
  have hne : r.text.isEmpty = false := by
    cases hr : r.text with
    | nil => exact absurd hr h1
    | cons c s => rfl
  unfold finalizeResult at h2 ⊢
  rw [hne] at h2 ⊢
  simp only [Bool.false_eq_true, if_false] at h2 ⊢
  split_ifs at h2 ⊢ <;> first
    | exact ⟨rfl, rfl⟩
    | simp_all [List.isEmpty_iff]

/-- Witness for the amended C3: Gemini's sentinel text `[no speech detected]`
reaches the cleanup non-empty, leaves empty, and is marked `noSpeech` with
confidence `0.1`. -/
theorem finalize_empty_text_marks_noSpeech_witness :
    (finalizeResult
      { text := "[no speech detected]".data, rawText := "[no speech detected]".data,
        confidence := 9 / 10, method := Method.gemini }).confidence = 1 / 10 ∧
    (finalizeResult
      { text := "[no speech detected]".data, rawText := "[no speech detected]".data,
        confidence := 9 / 10, method := Method.gemini }).noSpeech = true :=
  finalize_empty_text_marks_noSpeech _ (by decide) (by decide)

/-- C4 counterexample: a general-tier provider failing with
`INVALID_API_KEY` on every attempt is called 3 times — the orchestrator's
break set does not contain `INVALID_API_KEY` (nor `FORBIDDEN`), so the claim's
immediate break for those kinds fails. -/
theorem invalid_api_key_is_retried :
    countGemini (transcribeRun cfgGem (orcGemFail ErrType.INVALID_API_KEY) zeros8).trace = 3 ∧
    countGemini (transcribeRun cfgGem (orcGemFail ErrType.FORBIDDEN) zeros8).trace = 3 := by
  constructor
  · rw [runGemInvalidKey]
    decide
  · rw [runGemForbidden]
    decide

/-- C4 amended: the orchestrator's non-retryable break set is exactly
`INVALID_REQUEST`, `CONFIG_ERROR`, `CONTENT_BLOCKED`: failing with one of
those kinds on attempt 1 of 3 yields exactly one Gemini call and the error is
rethrown (`INVALID_API_KEY` and `FORBIDDEN` are retried like transient
kinds). -/
theorem nonretryable_break_set (e : ErrType)
    (h : e = ErrType.INVALID_REQUEST ∨ e = ErrType.CONFIG_ERROR ∨
      e = ErrType.CONTENT_BLOCKED) :
    countGemini (transcribeRun cfgGem (orcGemFail e) zeros8).trace = 1 ∧
    (transcribeRun cfgGem (orcGemFail e) zeros8).outcome = RunOutcome.err e := by
  rcases h with rfl | rfl | rfl
  · exact ⟨by rw [runGemInvalidReq]; decide, by rw [runGemInvalidReq]⟩
  · exact ⟨by rw [runGemConfigErr]; decide, by rw [runGemConfigErr]⟩
  · exact ⟨by rw [runGemBlocked]; decide, by rw [runGemBlocked]⟩

/-- Witness for the amended C4 at `CONTENT_BLOCKED`. -/
theorem nonretryable_break_set_witness :
    countGemini (transcribeRun cfgGem (orcGemFail ErrType.CONTENT_BLOCKED) zeros8).trace = 1 ∧
    (transcribeRun cfgGem (orcGemFail ErrType.CONTENT_BLOCKED) zeros8).outcome =
      RunOutcome.err ErrType.CONTENT_BLOCKED :=
  nonretryable_break_set ErrType.CONTENT_BLOCKED (Or.inr (Or.inr rfl))

/-- C5: the backoff delay after attempt `n` is
`min(1000ms * 2^(n-1), 8000ms)`, and a general-tier provider failing with
`RATE_LIMIT` twice before succeeding sees sleeps of 1000ms then 2000ms between
exactly 3 calls. -/
theorem retry_backoff_sequencing :
    (∀ n : Nat, retryDelay 1000 (n + 1) = min (1000 * 2 ^ n) 8000) ∧
    sleepsOf (transcribeRun cfgGem orcGemRL alt8).trace = [1000, 2000] ∧
    countGemini (transcribeRun cfgGem orcGemRL alt8).trace = 3 ∧
    (transcribeRun cfgGem orcGemRL alt8).trace =
      [Ev.geminiCall PromptVariant.standard, Ev.sleep 1000,
       Ev.geminiCall PromptVariant.fallback, Ev.sleep 2000,
       Ev.geminiCall PromptVariant.fallback] := by
  refine ⟨fun n => rfl, ?_, ?_, ?_⟩
  · rw [runGemRL]
    decide
  · rw [runGemRL]
    decide
  · rw [runGemRL]

/-- C6 counterexample: the Gemini adapter maps HTTP 400 to the generic
`API_ERROR`, which is outside the closed §7 taxonomy (and Groq maps every
non-2xx status there). -/
theorem gemini_api_error_outside_taxonomy :
    geminiStatusErrType 400 = ErrType.API_ERROR ∧
    ErrType.API_ERROR ∉ specErrorKinds := by
  constructor
  · decide
  · decide

/-- C6 amended: every provider-mapped HTTP status lands in the §7 taxonomy
extended with the generic `API_ERROR`: Gemini maps 429 to `RATE_LIMIT`, 5xx to
`SERVICE_ERROR` and every other non-2xx status to `API_ERROR`; Groq maps every
non-2xx status to `API_ERROR`. -/
theorem provider_error_kinds (s : Nat) :
    geminiStatusErrType s ∈ ErrType.API_ERROR :: specErrorKinds ∧
    groqStatusErrType s = ErrType.API_ERROR := by
  refine ⟨?_, rfl⟩
  unfold geminiStatusErrType
  split_ifs <;> simp [specErrorKinds]

/-- Witness for the amended C6 at status 403 (which the spec would call
`FORBIDDEN` but the code maps to `API_ERROR`). -/
theorem provider_error_kinds_witness :
    geminiStatusErrType 403 ∈ ErrType.API_ERROR :: specErrorKinds ∧
    groqStatusErrType 403 = ErrType.API_ERROR :=
  provider_error_kinds 403

/-- C8 counterexample: one correction pass is not a fixed point — on
`like like like` the duplicate-filler rule rewrites to `like like`, and a
second pass rewrites that to `like`. -/
theorem corrections_not_idempotent :
    applyCorrections (applyCorrections "like like like") ≠
      applyCorrections "like like like" := by
  decide

/-- C8 amended: `applyCorrections` is not idempotent in general (a
filler-collapse rule can create a fresh match for itself, as the
counterexample shows); one pass does reach a fixed point on transcripts whose
corrected form re-triggers no rule, e.g. the eye-to-AI homophone sample and a
plain contraction input. -/
theorem corrections_idempotent_on_samples :
    applyCorrections (applyCorrections "eye tools") = applyCorrections "eye tools" ∧
    applyCorrections (applyCorrections "dont") = applyCorrections "dont" := by
  exact ⟨by decide, by decide⟩

/-! ## Support lemmas for the bounded matcher (claim C9) -/

theorem wsCount_le_length (s : List Char) : wsCount s ≤ s.length := by
  induction s with
  | nil => simp [wsCount]
  | cons c s ih =>
      simp only [wsCount, List.length_cons]
      split_ifs <;> omega

theorem wsCount_append_of_lt {s : List Char} (rest : List Char)
    (h : wsCount s < s.length) : wsCount (s ++ rest) = wsCount s := by
  induction s with
  | nil => simp [wsCount] at h
  | cons c s ih =>
      show wsCount (c :: (s ++ rest)) = wsCount (c :: s)
      simp only [wsCount]
      split_ifs with hc
      · have h' : wsCount s < s.length := by
          simp only [wsCount, hc, if_true, List.length_cons] at h
          omega
        rw [ih h']
      · rfl

theorem mem_descFrom1 {k j : Nat} (h : k ∈ descFrom1 j) : 1 ≤ k ∧ k ≤ j := by
  induction j with
  | zero => simp [descFrom1] at h
  | succ m ih =>
      simp only [descFrom1, List.mem_cons] at h
      rcases h with rfl | h
      · omega
      · have := ih h
        omega

theorem mem_descFrom0 {k j : Nat} (h : k ∈ descFrom0 j) : k ≤ j := by
  simp only [descFrom0, List.mem_append, List.mem_singleton] at h
  rcases h with h | rfl
  · exact (mem_descFrom1 h).2
  · omega

theorem prevAfter_append {prev : Option Char} {k : Nat} {s : List Char}
    (rest : List Char) (h : k ≤ s.length) :
    prevAfter prev k (s ++ rest) = prevAfter prev k s := by
  unfold prevAfter
  split_ifs with h0
  · rfl
  · have hk : k - 1 < s.length := by omega
    rw [List.get?_append hk]

theorem lastPrev_cons (prev : Option Char) (c : Char) (cs : List Char) :
    lastPrev prev (c :: cs) = lastPrev (some c) cs := by
  cases cs with
  | nil => rfl
  | cons c' cs' =>
      unfold lastPrev
      rw [List.getLast?_cons_cons]
      cases h : (c' :: cs').getLast? with
      | none => simp at h
      | some x => rfl

theorem getLast?_drop_of_ne_nil {l : List Char} {k : Nat}
    (h : l.drop k ≠ []) : (l.drop k).getLast? = l.getLast? := by
  conv_rhs => rw [← List.take_append_drop k l]
  exact (List.getLast?_append_of_ne_nil _ h).symm

theorem get?_pred_of_drop_nil {l : List Char} {k : Nat}
    (hk1 : 1 ≤ k) (hk2 : k ≤ l.length) (h : l.drop k = []) :
    l.get? (k - 1) = l.getLast? := by
  have hlen : l.length ≤ k := by
    have h2 := List.length_drop k l
    rw [h] at h2
    simp only [List.length_nil] at h2
    omega
  have hkl : k = l.length := le_antisymm hk2 hlen
  subst hkl
  cases l with
  | nil => simp at hk1
  | cons c cs => rw [List.getLast?_eq_get?]

theorem lastPrev_drop {prev : Option Char} {k : Nat} {l : List Char}
    (hk1 : 1 ≤ k) (hk2 : k ≤ l.length) :
    lastPrev (prevAfter prev k l) (l.drop k) = lastPrev prev l := by
  have hne : l ≠ [] := by
    intro hnil
    subst hnil
    simp at hk2
    omega
  obtain ⟨x, hx⟩ := Option.isSome_iff_exists.mp (List.getLast?_isSome.mpr hne)
  by_cases hd : l.drop k = []
  · have h1 : l.get? (k - 1) = some x := by
      rw [get?_pred_of_drop_nil hk1 hk2 hd, hx]
    have hL : lastPrev (prevAfter prev k l) (l.drop k) = prevAfter prev k l := by
      rw [hd]
      rfl
    rw [hL]
    unfold prevAfter lastPrev
    rw [if_neg (by omega), h1, hx]
  · unfold lastPrev
    rw [getLast?_drop_of_ne_nil hd, hx]

theorem scanF_congr (pat : RE) (tmpl : List TPart) :
    ∀ (f1 f2 : Nat) (prev : Option Char) (s : List Char),
      s.length < f1 → s.length < f2 →
      scanF pat tmpl f1 prev s = scanF pat tmpl f2 prev s := by
  intro f1
  induction f1 with
  | zero => intro f2 prev s h1 _; omega
  | succ g ih =>
      intro f2 prev s h1 h2
      cases s with
      | nil =>
          cases f2 with
          | zero => omega
          | succ g2 => rfl
      | cons c s' =>
          cases f2 with
          | zero => omega
          | succ g2 =>
              simp only [scanF]
              cases hm : (mlist pat prev (c :: s')).head? with
              | none =>
                  rw [ih g2 (some c) s' (by simpa using h1) (by simpa using h2)]
              | some kc =>
                  dsimp only
                  split_ifs with hk
                  · rw [ih g2 (some c) s' (by simpa using h1) (by simpa using h2)]
                  · have hd : (List.drop kc.1 (c :: s')).length < g := by
                      have := List.length_drop kc.1 (c :: s')
                      simp only [List.length_cons] at this h1
                      omega
                    have hd2 : (List.drop kc.1 (c :: s')).length < g2 := by
                      have := List.length_drop kc.1 (c :: s')
                      simp only [List.length_cons] at this h2
                      omega
                    rw [ih g2 _ _ hd hd2]

theorem seqComb_nil (f : Nat × List Char → List (Nat × List Char) × Bool) (ca : Bool) :
    seqComb f [] ca = ([], ca) := rfl

theorem seqComb_cons_pos {f : Nat × List Char → List (Nat × List Char) × Bool}
    {kc : Nat × List Char} (more : List (Nat × List Char)) (ca : Bool)
    (h : (f kc).2 = true) :
    seqComb f (kc :: more) ca =
      ((f kc).1.map (fun kc2 => (kc.1 + kc2.1, pickCap kc.2 kc2.2)) ++ (seqComb f more ca).1,
       (seqComb f more ca).2) := by
  simp [seqComb, h]

theorem seqComb_cons_neg {f : Nat × List Char → List (Nat × List Char) × Bool}
    {kc : Nat × List Char} (more : List (Nat × List Char)) (ca : Bool)
    (h : (f kc).2 = false) :
    seqComb f (kc :: more) ca =
      ((f kc).1.map (fun kc2 => (kc.1 + kc2.1, pickCap kc.2 kc2.2)), false) := by
  simp [seqComb, h]

theorem seqComb_sound
    (f : Nat × List Char → List (Nat × List Char) × Bool)
    (g : Nat × List Char → List (Nat × List Char))
    (bnd : Nat)
    (hpre : ∀ kc, kc.1 ≤ bnd →
      ∃ t, g kc = (f kc).1.map (fun kc2 => (kc.1 + kc2.1, pickCap kc.2 kc2.2)) ++ t)
    (hcomp : ∀ kc, kc.1 ≤ bnd → (f kc).2 = true →
      g kc = (f kc).1.map (fun kc2 => (kc.1 + kc2.1, pickCap kc.2 kc2.2)))
    (hbnd : ∀ kc, kc.1 ≤ bnd → ∀ kc2 ∈ (f kc).1, kc2.1 ≤ bnd - kc.1) :
    ∀ (ka : List (Nat × List Char)) (ca : Bool) (E : List (Nat × List Char)),
      (∀ kc ∈ ka, kc.1 ≤ bnd) → (ca = true → E = []) →
      (∀ kc ∈ (seqComb f ka ca).1, kc.1 ≤ bnd) ∧
      (∃ t, ka.flatMap g ++ E = (seqComb f ka ca).1 ++ t) ∧
      ((seqComb f ka ca).2 = true → ka.flatMap g ++ E = (seqComb f ka ca).1) := by
  intro ka
  induction ka with
  | nil =>
      intro ca E _ hE
      refine ⟨by simp [seqComb_nil], ⟨E, by simp [seqComb_nil]⟩, ?_⟩
      intro hca
      simp [seqComb_nil, hE hca]
  | cons kc more ih =>
      intro ca E hka hE
      have hk : kc.1 ≤ bnd := hka kc (by simp)
      have hmore : ∀ x ∈ more, x.1 ≤ bnd := fun x hx => hka x (by simp [hx])
      by_cases h2 : (f kc).2 = true
      · have hg := hcomp kc hk h2
        obtain ⟨ihb, ⟨t, ht⟩, ihc⟩ := ih ca E hmore hE
        rw [seqComb_cons_pos more ca h2]
        refine ⟨?_, ⟨t, ?_⟩, ?_⟩
        · intro x hx
          simp only [List.mem_append] at hx
          rcases hx with hx | hx
          · obtain ⟨kc2, hkc2, rfl⟩ := List.mem_map.mp hx
            have := hbnd kc hk kc2 hkc2
            omega
          · exact ihb x hx
        · rw [List.flatMap_cons, List.append_assoc, ht, hg, List.append_assoc]
        · intro hcp
          rw [List.flatMap_cons, List.append_assoc, ihc hcp, hg]
      · have h2' : (f kc).2 = false := by
          cases hb : (f kc).2
          · rfl
          · exact absurd hb h2
        obtain ⟨t0, ht0⟩ := hpre kc hk
        rw [seqComb_cons_neg more ca h2']
        refine ⟨?_, ⟨t0 ++ (more.flatMap g ++ E), ?_⟩, ?_⟩
        · intro x hx
          obtain ⟨kc2, hkc2, rfl⟩ := List.mem_map.mp hx
          have := hbnd kc hk kc2 hkc2
          omega
        · rw [List.flatMap_cons, List.append_assoc, ht0, List.append_assoc]
        · intro hcp
          simp at hcp

theorem mB_sound : ∀ (r : RE) (prev : Option Char) (s rest : List Char),
    (∀ kc ∈ (mB r prev s).1, kc.1 ≤ s.length) ∧
    (∃ t, mlist r prev (s ++ rest) = (mB r prev s).1 ++ t) ∧
    ((mB r prev s).2 = true → mlist r prev (s ++ rest) = (mB r prev s).1) := by
  intro r
  induction r with
  | eps =>
      intro prev s rest
      exact ⟨by simp [mB], ⟨[], by simp [mB, mlist]⟩, fun _ => by simp [mB, mlist]⟩
  | lit c =>
      intro prev s rest
      cases s with
      | nil =>
          exact ⟨by simp [mB], ⟨mlist (.lit c) prev rest, by simp [mB]⟩, by simp [mB]⟩
      | cons a s' =>
          refine ⟨?_, ⟨[], ?_⟩, fun _ => ?_⟩
          · intro kc hkc
            simp only [mB] at hkc
            split_ifs at hkc with h
            · simp only [List.mem_singleton] at hkc
              rw [hkc]
              simp
            · simp at hkc
          · show mlist (.lit c) prev (a :: (s' ++ rest)) = _ ++ []
            simp [mB, mlist]
          · show mlist (.lit c) prev (a :: (s' ++ rest)) = _
            simp [mB, mlist]
  | litCI c =>
      intro prev s rest
      cases s with
      | nil =>
          exact ⟨by simp [mB], ⟨mlist (.litCI c) prev rest, by simp [mB]⟩, by simp [mB]⟩
      | cons a s' =>
          refine ⟨?_, ⟨[], ?_⟩, fun _ => ?_⟩
          · intro kc hkc
            simp only [mB] at hkc
            split_ifs at hkc with h
            · simp only [List.mem_singleton] at hkc
              rw [hkc]
              simp
            · simp at hkc
          · show mlist (.litCI c) prev (a :: (s' ++ rest)) = _ ++ []
            simp [mB, mlist]
          · show mlist (.litCI c) prev (a :: (s' ++ rest)) = _
            simp [mB, mlist]
  | cls p =>
      intro prev s rest
      cases s with
      | nil =>
          exact ⟨by simp [mB], ⟨mlist (.cls p) prev rest, by simp [mB]⟩, by simp [mB]⟩
      | cons a s' =>
          refine ⟨?_, ⟨[], ?_⟩, fun _ => ?_⟩
          · intro kc hkc
            simp only [mB] at hkc
            split_ifs at hkc with h
            · simp only [List.mem_singleton] at hkc
              rw [hkc]
              simp
            · simp at hkc
          · show mlist (.cls p) prev (a :: (s' ++ rest)) = _ ++ []
            simp [mB, mlist]
          · show mlist (.cls p) prev (a :: (s' ++ rest)) = _
            simp [mB, mlist]
  | ws1 =>
      intro prev s rest
      by_cases hj : wsCount s = s.length
      · refine ⟨by simp [mB, hj], ⟨mlist .ws1 prev (s ++ rest), by simp [mB, hj]⟩, ?_⟩
        simp [mB, hj]
      · have hlt : wsCount s < s.length := lt_of_le_of_ne (wsCount_le_length s) hj
        have happ := wsCount_append_of_lt rest hlt
        refine ⟨?_, ⟨[], ?_⟩, fun _ => ?_⟩
        · intro kc hkc
          simp only [mB, if_neg hj] at hkc
          obtain ⟨k, hk, rfl⟩ := List.mem_map.mp hkc
          have h1 := (mem_descFrom1 hk).2
          have h2 := wsCount_le_length s
          simp only []
          omega
        · simp [mB, mlist, hj, happ]
        · simp [mB, mlist, hj, happ]
  | ws0 =>
      intro prev s rest
      by_cases hj : wsCount s = s.length
      · refine ⟨by simp [mB, hj], ⟨mlist .ws0 prev (s ++ rest), by simp [mB, hj]⟩, ?_⟩
        simp [mB, hj]
      · have hlt : wsCount s < s.length := lt_of_le_of_ne (wsCount_le_length s) hj
        have happ := wsCount_append_of_lt rest hlt
        refine ⟨?_, ⟨[], ?_⟩, fun _ => ?_⟩
        · intro kc hkc
          simp only [mB, if_neg hj] at hkc
          obtain ⟨k, hk, rfl⟩ := List.mem_map.mp hkc
          have h1 := mem_descFrom0 hk
          have h2 := wsCount_le_length s
          simp only []
          omega
        · simp [mB, mlist, hj, happ]
        · simp [mB, mlist, hj, happ]
  | anyStar =>
      intro prev s rest
      exact ⟨by simp [mB], ⟨mlist .anyStar prev (s ++ rest), by simp [mB]⟩, by simp [mB]⟩
  | wb =>
      intro prev s rest
      cases s with
      | nil =>
          exact ⟨by simp [mB], ⟨mlist .wb prev rest, by simp [mB]⟩, by simp [mB]⟩
      | cons a s' =>
          refine ⟨?_, ⟨[], ?_⟩, fun _ => ?_⟩
          · intro kc hkc
            simp only [mB] at hkc
            split_ifs at hkc with h
            · simp only [List.mem_singleton] at hkc
              rw [hkc]
              simp
            · simp at hkc
          · show mlist .wb prev (a :: (s' ++ rest)) = _ ++ []
            simp [mB, mlist]
          · show mlist .wb prev (a :: (s' ++ rest)) = _
            simp [mB, mlist]
  | seq a b iha ihb =>
      intro prev s rest
      obtain ⟨bA, ⟨ta, hta⟩, hcA⟩ := iha prev s rest
      have hpre : ∀ kc : Nat × List Char, kc.1 ≤ s.length →
          ∃ t, (mlist b (prevAfter prev kc.1 (s ++ rest)) ((s ++ rest).drop kc.1)).map
              (fun kc2 => (kc.1 + kc2.1, pickCap kc.2 kc2.2)) =
            (mB b (prevAfter prev kc.1 s) (s.drop kc.1)).1.map
              (fun kc2 => (kc.1 + kc2.1, pickCap kc.2 kc2.2)) ++ t := by
        intro kc hk
        obtain ⟨_, ⟨tb, htb⟩, _⟩ := ihb (prevAfter prev kc.1 s) (s.drop kc.1) rest
        refine ⟨tb.map (fun kc2 => (kc.1 + kc2.1, pickCap kc.2 kc2.2)), ?_⟩
        rw [prevAfter_append rest hk, List.drop_append_of_le_length hk, htb, List.map_append]
      have hcomp : ∀ kc : Nat × List Char, kc.1 ≤ s.length →
          (mB b (prevAfter prev kc.1 s) (s.drop kc.1)).2 = true →
          (mlist b (prevAfter prev kc.1 (s ++ rest)) ((s ++ rest).drop kc.1)).map
              (fun kc2 => (kc.1 + kc2.1, pickCap kc.2 kc2.2)) =
            (mB b (prevAfter prev kc.1 s) (s.drop kc.1)).1.map
              (fun kc2 => (kc.1 + kc2.1, pickCap kc.2 kc2.2)) := by
        intro kc hk hc
        obtain ⟨_, _, hcomp'⟩ := ihb (prevAfter prev kc.1 s) (s.drop kc.1) rest
        rw [prevAfter_append rest hk, List.drop_append_of_le_length hk, hcomp' hc]
      have hbnd : ∀ kc : Nat × List Char, kc.1 ≤ s.length →
          ∀ kc2 ∈ (mB b (prevAfter prev kc.1 s) (s.drop kc.1)).1,
            kc2.1 ≤ s.length - kc.1 := by
        intro kc hk kc2 hkc2
        obtain ⟨hb, _, _⟩ := ihb (prevAfter prev kc.1 s) (s.drop kc.1) rest
        have := hb kc2 hkc2
        rw [List.length_drop] at this
        exact this
      have hE : (mB a prev s).2 = true →
          ta.flatMap (fun kc => (mlist b (prevAfter prev kc.1 (s ++ rest))
            ((s ++ rest).drop kc.1)).map
              (fun kc2 => (kc.1 + kc2.1, pickCap kc.2 kc2.2))) = [] := by
        intro hca
        have h0 := hcA hca
        rw [h0] at hta
        have hta2 : (mB a prev s).1 ++ [] = (mB a prev s).1 ++ ta := by
          simpa using hta
        have hta3 : ta = [] := (List.append_cancel_left hta2).symm
        simp [hta3]
      have hmain := seqComb_sound
        (fun kc => mB b (prevAfter prev kc.1 s) (s.drop kc.1))
        (fun kc => (mlist b (prevAfter prev kc.1 (s ++ rest)) ((s ++ rest).drop kc.1)).map
          (fun kc2 => (kc.1 + kc2.1, pickCap kc.2 kc2.2)))
        s.length hpre hcomp hbnd (mB a prev s).1 (mB a prev s).2 _ bA hE
      have hml : mlist (.seq a b) prev (s ++ rest) =
          (mlist a prev (s ++ rest)).flatMap
            (fun kc => (mlist b (prevAfter prev kc.1 (s ++ rest)) ((s ++ rest).drop kc.1)).map
              (fun kc2 => (kc.1 + kc2.1, pickCap kc.2 kc2.2))) := rfl
      have hmb : mB (.seq a b) prev s =
          seqComb (fun kc => mB b (prevAfter prev kc.1 s) (s.drop kc.1))
            (mB a prev s).1 (mB a prev s).2 := rfl
      rw [hmb, hml, hta, List.flatMap_append]
      exact hmain
  | alt a b iha ihb =>
      intro prev s rest
      obtain ⟨bA, ⟨ta, hta⟩, hcA⟩ := iha prev s rest
      obtain ⟨bB, ⟨tb, htb⟩, hcB⟩ := ihb prev s rest
      by_cases hca : (mB a prev s).2 = true
      · have hA := hcA hca
        have hmb : mB (.alt a b) prev s =
            ((mB a prev s).1 ++ (mB b prev s).1, (mB b prev s).2) := by
          simp [mB, hca]
        rw [hmb]
        refine ⟨?_, ⟨tb, ?_⟩, ?_⟩
        · intro kc hkc
          simp only [List.mem_append] at hkc
          rcases hkc with h | h
          · exact bA kc h
          · exact bB kc h
        · show mlist a prev (s ++ rest) ++ mlist b prev (s ++ rest) = _
          rw [hA, htb, List.append_assoc]
        · intro hcb
          show mlist a prev (s ++ rest) ++ mlist b prev (s ++ rest) = _
          rw [hA, hcB hcb]
      · have hca' : (mB a prev s).2 = false := by
          cases h : (mB a prev s).2
          · rfl
          · exact absurd h hca
        have hmb : mB (.alt a b) prev s = ((mB a prev s).1, false) := by
          simp [mB, hca']
        rw [hmb]
        refine ⟨bA, ⟨ta ++ mlist b prev (s ++ rest), ?_⟩, ?_⟩
        · show mlist a prev (s ++ rest) ++ mlist b prev (s ++ rest) = _
          rw [hta, List.append_assoc]
        · intro h
          simp at h
  | opt a iha =>
      intro prev s rest
      obtain ⟨bA, ⟨ta, hta⟩, hcA⟩ := iha prev s rest
      by_cases hca : (mB a prev s).2 = true
      · have hA := hcA hca
        have hmb : mB (.opt a) prev s = ((mB a prev s).1 ++ [(0, [])], true) := by
          simp [mB, hca]
        rw [hmb]
        refine ⟨?_, ⟨[], ?_⟩, fun _ => ?_⟩
        · intro kc hkc
          simp only [List.mem_append, List.mem_singleton] at hkc
          rcases hkc with h | h
          · exact bA kc h
          · rw [h]
            simp
        · show mlist a prev (s ++ rest) ++ [(0, [])] = _ ++ []
          rw [hA, List.append_nil]
        · show mlist a prev (s ++ rest) ++ [(0, [])] = _
          rw [hA]
      · have hca' : (mB a prev s).2 = false := by
          cases h : (mB a prev s).2
          · rfl
          · exact absurd h hca
        have hmb : mB (.opt a) prev s = ((mB a prev s).1, false) := by
          simp [mB, hca']
        rw [hmb]
        refine ⟨bA, ⟨ta ++ [(0, [])], ?_⟩, ?_⟩
        · show mlist a prev (s ++ rest) ++ [(0, [])] = _
          rw [hta, List.append_assoc]
        · intro h
          simp at h
  | grp a iha =>
      intro prev s rest
      obtain ⟨bA, ⟨ta, hta⟩, hcA⟩ := iha prev s rest
      have hmb : mB (.grp a) prev s =
          ((mB a prev s).1.map (fun kc => (kc.1, s.take kc.1)), (mB a prev s).2) := rfl
      have hmap : (mB a prev s).1.map (fun kc => (kc.1, (s ++ rest).take kc.1)) =
          (mB a prev s).1.map (fun kc => (kc.1, s.take kc.1)) := by
        apply List.map_congr_left
        intro kc hkc
        rw [List.take_append_of_le_length (bA kc hkc)]
      rw [hmb]
      refine ⟨?_, ⟨ta.map (fun kc => (kc.1, (s ++ rest).take kc.1)), ?_⟩, ?_⟩
      · intro kc hkc
        obtain ⟨kc', hkc', rfl⟩ := List.mem_map.mp hkc
        exact bA kc' hkc'
      · show (mlist a prev (s ++ rest)).map _ = _
        rw [hta, List.map_append, hmap]
      · intro hc
        show (mlist a prev (s ++ rest)).map _ = _
        rw [hcA hc, hmap]
  | look a iha =>
      intro prev s rest
      obtain ⟨_, ⟨ta, hta⟩, hcA⟩ := iha prev s rest
      cases hka : (mB a prev s).1 with
      | nil =>
          by_cases hca : (mB a prev s).2 = true
          · have h0 : mlist a prev (s ++ rest) = [] := by
              rw [hcA hca, hka]
            refine ⟨by simp [mB, hka, hca], ⟨[], ?_⟩, fun _ => ?_⟩
            · show (if (mlist a prev (s ++ rest)).isEmpty then ([] : List (Nat × List Char))
                else [(0, [])]) = _ ++ []
              simp [mB, hka, hca, h0]
            · show (if (mlist a prev (s ++ rest)).isEmpty then ([] : List (Nat × List Char))
                else [(0, [])]) = _
              simp [mB, hka, hca, h0]
          · have hca' : (mB a prev s).2 = false := by
              cases h : (mB a prev s).2
              · rfl
              · exact absurd h hca
            refine ⟨by simp [mB, hka, hca'], ⟨mlist (.look a) prev (s ++ rest), ?_⟩, ?_⟩
            · simp [mB, hka, hca']
            · simp [mB, hka, hca']
      | cons x xs =>
          have hne : (mlist a prev (s ++ rest)).isEmpty = false := by
            rw [hta, hka]
            simp
          refine ⟨?_, ⟨[], ?_⟩, fun _ => ?_⟩
          · intro kc hkc
            simp only [mB, hka, List.isEmpty_cons, Bool.false_eq_true, if_false,
              List.mem_singleton] at hkc
            rw [hkc]
            simp
          · show (if (mlist a prev (s ++ rest)).isEmpty then ([] : List (Nat × List Char))
              else [(0, [])]) = _ ++ []
            simp [mB, hka, hne]
          · show (if (mlist a prev (s ++ rest)).isEmpty then ([] : List (Nat × List Char))
              else [(0, [])]) = _
            simp [mB, hka, hne]

theorem scanR_nil (r : Rule) (prev : Option Char) : scanR r prev [] = [] := rfl

theorem scanR_cons (r : Rule) (prev : Option Char) (c : Char) (s : List Char) :
    scanR r prev (c :: s) =
      match (mlist r.pat prev (c :: s)).head? with
      | some kc =>
          if kc.1 = 0 then instParts r.tmpl kc.2 ++ c :: scanR r (some c) s
          else instParts r.tmpl kc.2 ++
            scanR r (prevAfter prev kc.1 (c :: s)) (List.drop kc.1 (c :: s))
      | none => c :: scanR r (some c) s := by
  show scanF r.pat r.tmpl ((c :: s).length + 1) prev (c :: s) = _
  simp only [List.length_cons, scanF]
  cases hm : (mlist r.pat prev (c :: s)).head? with
  | none => rfl
  | some kc =>
      dsimp only
      split_ifs with hk
      · rfl
      · have h1 : (List.drop kc.1 (c :: s)).length < s.length + 1 := by
          have := List.length_drop kc.1 (c :: s)
          simp only [List.length_cons] at this
          omega
        rw [scanF_congr r.pat r.tmpl (s.length + 1) ((List.drop kc.1 (c :: s)).length + 1)
          _ _ h1 (by omega)]
        rfl

theorem scanChunkB_sound (r : Rule) :
    ∀ (fuel : Nat) (prev : Option Char) (chunk : List Char) (hc : Char) (out : List Char),
      scanChunkB r fuel prev chunk hc = some out →
      ∀ rest, scanR r prev (chunk ++ hc :: rest) =
        out ++ scanR r (lastPrev prev chunk) (hc :: rest) := by
  intro fuel
  induction fuel with
  | zero =>
      intro prev chunk hc out hsc
      simp [scanChunkB] at hsc
  | succ g ih =>
      intro prev chunk hc out hsc rest
      cases chunk with
      | nil =>
          have hout : out = [] := by
            simp only [scanChunkB] at hsc
            exact (Option.some_inj.mp hsc).symm
          subst hout
          simp [lastPrev]
      | cons c cs =>
          obtain ⟨hbounds, ⟨t, ht⟩, hcomp⟩ := mB_sound r.pat prev (c :: cs ++ [hc]) rest
          simp only [scanChunkB] at hsc
          cases hm : (mB r.pat prev (c :: cs ++ [hc])).1 with
          | nil =>
              rw [hm] at hsc
              dsimp only at hsc
              split_ifs at hsc with h2
              obtain ⟨out', ho', hout⟩ := Option.map_eq_some'.mp hsc
              have hml : mlist r.pat prev ((c :: cs ++ [hc]) ++ rest) = [] := by
                rw [hcomp h2, hm]
              show scanR r prev (c :: (cs ++ hc :: rest)) = _
              rw [scanR_cons]
              have hml' : mlist r.pat prev (c :: (cs ++ hc :: rest)) = [] := by
                have he : c :: (cs ++ hc :: rest) = (c :: cs ++ [hc]) ++ rest := by simp
                rw [he]
                exact hml
              rw [hml']
              dsimp only [List.head?]
              rw [ih (some c) cs hc out' ho' rest, lastPrev_cons, ← hout]
              rfl
          | cons kc tl =>
              rw [hm] at hsc
              dsimp only at hsc
              split_ifs at hsc with hk0 hkle
              obtain ⟨out', ho', hout⟩ := Option.map_eq_some'.mp hsc
              have hk1 : 1 ≤ kc.1 := by omega
              have hkle' : kc.1 ≤ (c :: cs).length := by
                simpa using hkle
              have hhead : (mlist r.pat prev (c :: (cs ++ hc :: rest))).head? = some kc := by
                have he : c :: (cs ++ hc :: rest) = (c :: cs ++ [hc]) ++ rest := by simp
                rw [he, ht, hm]
                rfl
              show scanR r prev (c :: (cs ++ hc :: rest)) = _
              rw [scanR_cons, hhead]
              dsimp only
              rw [if_neg hk0]
              have hpa : prevAfter prev kc.1 (c :: (cs ++ hc :: rest)) =
                  prevAfter prev kc.1 (c :: cs) := by
                have := @prevAfter_append prev kc.1 (c :: cs) (hc :: rest) hkle'
                simpa using this
              have hdr : List.drop kc.1 (c :: (cs ++ hc :: rest)) =
                  List.drop kc.1 (c :: cs) ++ hc :: rest := by
                have := @List.drop_append_of_le_length _ _ (hc :: rest) _ hkle'
                simpa using this
              rw [hpa, hdr, ih _ _ _ _ ho' rest, lastPrev_drop hk1 hkle', ← hout]
              simp [List.append_assoc]

theorem ruleStep_sound (r : Rule) (ch tl o t : List Char)
    (hstep : ruleStep r (ch, tl) = some (o, t)) :
    ∀ n, scanR r none (repChunk n ch ++ tl) = repChunk n o ++ t ∧
      scanR r (some ' ') (repChunk n ch ++ tl) = repChunk n o ++ t := by
  unfold ruleStep at hstep
  cases h1 : scanChunkB r (ch.length + 1) none ch 'd' with
  | none => rw [h1] at hstep; simp at hstep
  | some o1 =>
      cases h2 : scanChunkB r (ch.length + 1) (some ' ') ch 'd' with
      | none => rw [h1, h2] at hstep; simp at hstep
      | some o2 =>
          rw [h1, h2] at hstep
          dsimp only at hstep
          split_ifs at hstep with hg
          obtain ⟨hoo, htt, hch, htl, hsp⟩ := hg
          have ho : o = o1 := (congrArg Prod.fst (Option.some_inj.mp hstep)).symm
          have ht : t = scanR r none tl := (congrArg Prod.snd (Option.some_inj.mp hstep)).symm
          subst ho ht
          intro n
          induction n with
          | zero =>
              constructor
              · rfl
              · exact htt.symm
          | succ m ihm =>
              have hhd : ∃ rest', repChunk m ch ++ tl = 'd' :: rest' := by
                cases m with
                | zero =>
                    cases htl' : tl with
                    | nil => rw [htl'] at htl; simp at htl
                    | cons a l =>
                        rw [htl'] at htl
                        simp only [List.head?_cons, Option.some_inj] at htl
                        subst htl
                        exact ⟨l, by simp [repChunk, htl']⟩
                | succ m' =>
                    cases hch' : ch with
                    | nil => rw [hch'] at hch; simp at hch
                    | cons a l =>
                        rw [hch'] at hch
                        simp only [List.head?_cons, Option.some_inj] at hch
                        subst hch
                        exact ⟨l ++ (repChunk m' ch ++ tl), by
                          simp [repChunk, hch', List.append_assoc]⟩
              obtain ⟨rest', hr⟩ := hhd
              have hlast1 : lastPrev none ch = some ' ' := by
                unfold lastPrev
                rw [hsp]
              have hlast2 : lastPrev (some ' ') ch = some ' ' := by
                unfold lastPrev
                rw [hsp]
              have hstep1 : repChunk (m + 1) ch ++ tl = ch ++ ('d' :: rest') := by
                show (ch ++ repChunk m ch) ++ tl = _
                rw [List.append_assoc, hr]
              constructor
              · rw [hstep1, scanChunkB_sound r _ _ _ _ _ h1 rest', hlast1, ← hr, ihm.2,
                  ← List.append_assoc]
                rfl
              · rw [hstep1, scanChunkB_sound r _ _ _ _ _ h2 rest', hlast2, ← hr, ihm.2, hoo,
                  ← List.append_assoc]
                rfl

theorem pipeCert_sound :
    ∀ (rs : List Rule) (ch tl ch' tl' : List Char),
      pipeCert rs (ch, tl) = some (ch', tl') →
      ∀ n, runRules rs (repChunk n ch ++ tl) = repChunk n ch' ++ tl' := by
  intro rs
  induction rs with
  | nil =>
      intro ch tl ch' tl' hp n
      simp only [pipeCert, Option.some_inj] at hp
      rw [show ch' = ch from (congrArg Prod.fst hp).symm,
        show tl' = tl from (congrArg Prod.snd hp).symm]
      rfl
  | cons r rs ih =>
      intro ch tl ch' tl' hp n
      simp only [pipeCert] at hp
      cases hstep : ruleStep r (ch, tl) with
      | none => rw [hstep] at hp; simp at hp
      | some st1 =>
          rw [hstep] at hp
          simp only [Option.some_bind] at hp
          have hrun : runRules (r :: rs) (repChunk n ch ++ tl) =
              runRules rs (scanR r none (repChunk n ch ++ tl)) := rfl
          rw [hrun, (ruleStep_sound r ch tl st1.1 st1.2 (by rw [hstep]) n).1]
          exact ih st1.1 st1.2 ch' tl' (by rw [← hp]) n

/-- The certified pipeline fact: every correction rule (and the final
whitespace collapse) maps the chunk `dont ` to `don't ` (the contraction
rule) or leaves it unchanged, and likewise for the final word `dont`. -/
theorem donPipeCert :
    pipeCert (corrections ++ [wsCollapse]) (donChunk, donTail) =
      some (donOutChunk, donOutTail) := by
  decide

theorem dropWhile_id_of_head {p : Char → Bool} {s : List Char}
    (h : ∀ c, s.head? = some c → p c = false) : s.dropWhile p = s := by
  cases s with
  | nil => rfl
  | cons c cs => simp [List.dropWhile_cons, h c rfl]

theorem edge_id (p : Char → Bool) (s : List Char)
    (h1 : ∀ c, s.head? = some c → p c = false)
    (h2 : ∀ c, s.getLast? = some c → p c = false) :
    ((s.dropWhile p).reverse.dropWhile p).reverse = s := by
  rw [dropWhile_id_of_head h1, dropWhile_id_of_head (p := p) (s := s.reverse),
    List.reverse_reverse]
  intro c hc
  exact h2 c (by rwa [List.head?_reverse] at hc)

theorem famOut_head (n : Nat) : (famOut n).head? = some 'd' := by
  cases n with
  | zero => rfl
  | succ m => rfl

theorem famOut_last (n : Nat) : (famOut n).getLast? = some 't' := by
  unfold famOut
  rw [List.getLast?_append_of_ne_nil _ (by simp [donOutTail])]
  decide

theorem famIn_nonempty (n : Nat) : (famIn n).isEmpty = false := by
  unfold famIn
  cases hx : repChunk n donChunk ++ donTail with
  | nil =>
      exfalso
      have := List.append_eq_nil.mp hx
      simp [donTail] at this
  | cons a l => rfl

theorem runRules_snoc (rs : List Rule) (r : Rule) (s : List Char) :
    runRules (rs ++ [r]) s = scanR r none (runRules rs s) := by
  unfold runRules
  rw [List.foldl_append]
  rfl

theorem famIn_corrected (n : Nat) : applyCorrectionsL (famIn n) = famOut n := by
  have hrun : runRules (corrections ++ [wsCollapse]) (famIn n) = famOut n :=
    pipeCert_sound _ _ _ _ _ donPipeCert n
  rw [runRules_snoc] at hrun
  unfold applyCorrectionsL
  rw [if_neg (by rw [famIn_nonempty n]; simp)]
  rw [hrun]
  have ht : jsTrim (famOut n) = famOut n := by
    unfold jsTrim
    refine edge_id isWsChar (famOut n) ?_ ?_
    · intro c hc
      rw [famOut_head n] at hc
      cases Option.some_inj.mp hc
      decide
    · intro c hc
      rw [famOut_last n] at hc
      cases Option.some_inj.mp hc
      decide
  have hs : stripEdges (famOut n) = famOut n := by
    unfold stripEdges
    refine edge_id isEdgeChar (famOut n) ?_ ?_
    · intro c hc
      rw [famOut_head n] at hc
      cases Option.some_inj.mp hc
      decide
    · intro c hc
      rw [famOut_last n] at hc
      cases Option.some_inj.mp hc
      decide
  rw [ht, hs]

theorem repChunk_length (n : Nat) (ch : List Char) :
    (repChunk n ch).length = n * ch.length := by
  induction n with
  | zero => simp [repChunk]
  | succ m ih =>
      show (ch ++ repChunk m ch).length = _
      rw [List.length_append, ih, Nat.succ_mul]
      omega

theorem famIn_length (n : Nat) : (famIn n).length = 5 * n + 4 := by
  unfold famIn
  rw [List.length_append, repChunk_length]
  have h1 : donChunk.length = 5 := rfl
  have h2 : donTail.length = 4 := rfl
  rw [h1, h2]
  omega

theorem famOut_length (n : Nat) : (famOut n).length = 6 * n + 5 := by
  unfold famOut
  rw [List.length_append, repChunk_length]
  have h1 : donOutChunk.length = 6 := rfl
  have h2 : donOutTail.length = 5 := rfl
  rw [h1, h2]
  omega

/-- Per-match bounds of the backtracking matcher: a match never consumes more
than the string and the group-1 capture is part of the consumed text. -/
theorem mlist_len_cap (r : RE) : ∀ (prev : Option Char) (s : List Char),
    ∀ kc ∈ mlist r prev s, kc.1 ≤ s.length ∧ kc.2.length ≤ kc.1 := by
  induction r with
  | eps =>
      intro prev s kc h
      simp only [mlist, List.mem_singleton] at h
      subst h
      simp
  | lit c =>
      intro prev s kc h
      cases s with
      | nil => simp [mlist] at h
      | cons a s2 =>
          simp only [mlist] at h
          split_ifs at h
          · simp only [List.mem_singleton] at h
            subst h
            simp
          · simp at h
  | litCI c =>
      intro prev s kc h
      cases s with
      | nil => simp [mlist] at h
      | cons a s2 =>
          simp only [mlist] at h
          split_ifs at h
          · simp only [List.mem_singleton] at h
            subst h
            simp
          · simp at h
  | cls p =>
      intro prev s kc h
      cases s with
      | nil => simp [mlist] at h
      | cons a s2 =>
          simp only [mlist] at h
          split_ifs at h
          · simp only [List.mem_singleton] at h
            subst h
            simp
          · simp at h
  | ws1 =>
      intro prev s kc h
      simp only [mlist, List.mem_map] at h
      obtain ⟨k, hk, rfl⟩ := h
      have h1 := (mem_descFrom1 hk).2
      have h2 := wsCount_le_length s
      exact ⟨by omega, by simp⟩
  | ws0 =>
      intro prev s kc h
      simp only [mlist, List.mem_map] at h
      obtain ⟨k, hk, rfl⟩ := h
      have h1 := mem_descFrom0 hk
      have h2 := wsCount_le_length s
      exact ⟨by omega, by simp⟩
  | anyStar =>
      intro prev s kc h
      simp only [mlist, List.mem_map] at h
      obtain ⟨k, hk, rfl⟩ := h
      exact ⟨mem_descFrom0 hk, by simp⟩
  | wb =>
      intro prev s kc h
      simp only [mlist] at h
      split_ifs at h
      · simp only [List.mem_singleton] at h
        subst h
        simp
      · simp at h
  | seq a b iha ihb =>
      intro prev s kc h
      simp only [mlist, List.mem_flatMap, List.mem_map] at h
      obtain ⟨kc1, h1, kc2, h2, rfl⟩ := h
      have ha := iha prev s kc1 h1
      have hb := ihb (prevAfter prev kc1.1 s) (s.drop kc1.1) kc2 h2
      have hdl : (s.drop kc1.1).length = s.length - kc1.1 := List.length_drop _ _
      rw [hdl] at hb
      constructor
      · show kc1.1 + kc2.1 ≤ s.length
        omega
      · show (pickCap kc1.2 kc2.2).length ≤ kc1.1 + kc2.1
        unfold pickCap
        split_ifs
        · omega
        · omega
  | alt a b iha ihb =>
      intro prev s kc h
      simp only [mlist, List.mem_append] at h
      rcases h with h | h
      · exact iha prev s kc h
      · exact ihb prev s kc h
  | opt a iha =>
      intro prev s kc h
      simp only [mlist, List.mem_append, List.mem_singleton] at h
      rcases h with h | rfl
      · exact iha prev s kc h
      · simp
  | grp a iha =>
      intro prev s kc h
      simp only [mlist, List.mem_map] at h
      obtain ⟨kc1, h1, rfl⟩ := h
      have ha := iha prev s kc1 h1
      refine ⟨ha.1, ?_⟩
      show (s.take kc1.1).length ≤ kc1.1
      exact le_trans (le_of_eq (List.length_take _ _)) (Nat.min_le_left _ _)
  | look a iha =>
      intro prev s kc h
      simp only [mlist] at h
      split_ifs at h
      · simp at h
      · simp only [List.mem_singleton] at h
        subst h
        simp

/-- Length of an instantiated replacement template. -/
theorem instParts_length_le (ps : List TPart) (cap : List Char) :
    (instParts ps cap).length ≤ tmplConst ps + numG ps * cap.length := by
  induction ps with
  | nil => simp [instParts, tmplConst, numG]
  | cons p ps ih =>
      cases p with
      | str cs =>
          have h : (instParts (TPart.str cs :: ps) cap).length =
              cs.length + (instParts ps cap).length := by
            simp [instParts]
          have h1 : tmplConst (TPart.str cs :: ps) = cs.length + tmplConst ps := by
            simp [tmplConst]
          have h2 : numG (TPart.str cs :: ps) = numG ps := by
            simp [numG]
          rw [h, h1, h2]
          omega
      | group1 =>
          have h : (instParts (TPart.group1 :: ps) cap).length =
              cap.length + (instParts ps cap).length := by
            simp [instParts]
          have h1 : tmplConst (TPart.group1 :: ps) = tmplConst ps := by
            simp [tmplConst]
          have h2 : numG (TPart.group1 :: ps) = 1 + numG ps := by
            simp [numG]
          rw [h, h1, h2, Nat.add_mul, Nat.one_mul]
          omega

/-- One global scan multiplies the length by at most the rule's growth factor
(plus the factor once more for a final zero-width match). -/
theorem scanR_length_le (r : Rule) :
    ∀ (N : Nat) (s : List Char), s.length ≤ N → ∀ prev : Option Char,
      (scanR r prev s).length ≤ rBound r * s.length + rBound r := by
  intro N
  induction N with
  | zero =>
      intro s hs prev
      have h0 : s = [] := List.eq_nil_of_length_eq_zero (by omega)
      subst h0
      simp [scanR_nil]
  | succ N ihN =>
      intro s hs prev
      cases s with
      | nil => simp [scanR_nil]
      | cons c cs =>
          rw [scanR_cons]
          cases hm : (mlist r.pat prev (c :: cs)).head? with
          | none =>
              dsimp only
              have hrec := ihN cs (by simp only [List.length_cons] at hs; omega) (some c)
              have hR : 1 ≤ rBound r := by unfold rBound; omega
              simp only [List.length_cons, Nat.mul_add, Nat.mul_one]
              omega
          | some kc =>
              dsimp only
              have hkc : kc ∈ mlist r.pat prev (c :: cs) := by
                cases hl : mlist r.pat prev (c :: cs) with
                | nil => rw [hl] at hm; simp at hm
                | cons y ys =>
                    rw [hl] at hm
                    simp only [List.head?_cons, Option.some_inj] at hm
                    rw [← hm]
                    exact List.mem_cons_self _ _
              obtain ⟨hk_le, hcap⟩ := mlist_len_cap r.pat prev (c :: cs) kc hkc
              split_ifs with hk0
              · have hcap0 : kc.2.length = 0 := by omega
                have hinst := instParts_length_le r.tmpl kc.2
                rw [hcap0, Nat.mul_zero] at hinst
                have hrec := ihN cs (by simp only [List.length_cons] at hs; omega) (some c)
                have hR : tmplConst r.tmpl + 1 ≤ rBound r := by unfold rBound; omega
                simp only [List.length_append, List.length_cons, Nat.mul_add, Nat.mul_one]
                omega
              · have hdrop : (List.drop kc.1 (c :: cs)).length = (c :: cs).length - kc.1 :=
                  List.length_drop _ _
                have hrec := ihN (List.drop kc.1 (c :: cs))
                  (by
                    rw [hdrop]
                    simp only [List.length_cons] at hs ⊢
                    omega)
                  (prevAfter prev kc.1 (c :: cs))
                rw [hdrop] at hrec
                have hinst := instParts_length_le r.tmpl kc.2
                have hcapk : numG r.tmpl * kc.2.length ≤ numG r.tmpl * kc.1 :=
                  Nat.mul_le_mul_left _ hcap
                have htck : tmplConst r.tmpl ≤ tmplConst r.tmpl * kc.1 :=
                  Nat.le_mul_of_pos_right _ (by omega)
                rw [List.length_append]
                have hsplit : rBound r * (c :: cs).length =
                    rBound r * ((c :: cs).length - kc.1) + rBound r * kc.1 := by
                  rw [← Nat.mul_add]
                  congr 1
                  omega
                rw [hsplit]
                have hRk : rBound r * kc.1 =
                    tmplConst r.tmpl * kc.1 + numG r.tmpl * kc.1 + kc.1 := by
                  unfold rBound
                  rw [Nat.add_mul, Nat.add_mul, Nat.one_mul]
                rw [hRk]
                omega

/-- Running a list of rules blows the length up by at most a constant factor
(a product of the per-rule growth factors). -/
theorem runRules_growth (rs : List Rule) :
    ∃ K : Nat, 0 < K ∧ ∀ s : List Char, (runRules rs s).length ≤ K * (s.length + 1) := by
  induction rs with
  | nil =>
      refine ⟨1, Nat.one_pos, fun s => ?_⟩
      show s.length ≤ 1 * (s.length + 1)
      omega
  | cons r rs ih =>
      obtain ⟨K, hK, hbd⟩ := ih
      refine ⟨K * (rBound r + 1), Nat.mul_pos hK (by omega), fun s => ?_⟩
      have h1 : runRules (r :: rs) s = runRules rs (scanR r none s) := rfl
      rw [h1]
      have h2 := hbd (scanR r none s)
      have h3 := scanR_length_le r s.length s (le_refl _) none
      have h4 : (scanR r none s).length + 1 ≤ (rBound r + 1) * (s.length + 1) := by
        have hdist : (rBound r + 1) * (s.length + 1) =
            rBound r * s.length + rBound r + s.length + 1 := by ring
        rw [hdist]
        omega
      calc (runRules rs (scanR r none s)).length
          ≤ K * ((scanR r none s).length + 1) := h2
        _ ≤ K * ((rBound r + 1) * (s.length + 1)) := Nat.mul_le_mul_left K h4
        _ = K * (rBound r + 1) * (s.length + 1) := by rw [Nat.mul_assoc]

theorem stripEdges_length_le (u : List Char) : (stripEdges u).length ≤ u.length := by
  unfold stripEdges
  rw [List.length_reverse]
  calc ((u.dropWhile isEdgeChar).reverse.dropWhile isEdgeChar).length
      ≤ (u.dropWhile isEdgeChar).reverse.length :=
        (List.dropWhile_suffix isEdgeChar).sublist.length_le
    _ = (u.dropWhile isEdgeChar).length := List.length_reverse _
    _ ≤ u.length := (List.dropWhile_suffix isEdgeChar).sublist.length_le

theorem jsTrim_length_le (u : List Char) : (jsTrim u).length ≤ u.length := by
  unfold jsTrim
  rw [List.length_reverse]
  calc ((u.dropWhile isWsChar).reverse.dropWhile isWsChar).length
      ≤ (u.dropWhile isWsChar).reverse.length :=
        (List.dropWhile_suffix isWsChar).sublist.length_le
    _ = (u.dropWhile isWsChar).length := List.length_reverse _
    _ ≤ u.length := (List.dropWhile_suffix isWsChar).sublist.length_le

/-- Claim C9 (counterexample): no fixed additive constant bounds the growth of
`applyCorrections`.  Concretely, the 204-character input made of 40 copies of
the chunk `dont ` followed by `dont` is corrected to a 245-character output,
40 + 1 characters longer than the input; and in general, for every candidate
constant `c` the input with `c + 1` copies grows by `c + 2 > c`: the
contraction rule inserts an apostrophe into every occurrence, so the growth is
proportional to the input, not constant. -/
theorem corrections_growth_unbounded :
    (String.mk (famIn 40)).length + 40 < (applyCorrections (String.mk (famIn 40))).length ∧
    ∀ c : Nat, ∃ x : String, x.length + c < (applyCorrections x).length := by
  have key : ∀ c : Nat, (String.mk (famIn c)).length + c <
      (applyCorrections (String.mk (famIn c))).length := by
    intro c
    have h1 : (String.mk (famIn c)).length = 5 * c + 4 := famIn_length c
    have h2 : applyCorrections (String.mk (famIn c)) = String.mk (famOut c) := by
      show String.mk (applyCorrectionsL (famIn c)) = _
      rw [famIn_corrected]
    have h3 : (String.mk (famOut c)).length = 6 * c + 5 := famOut_length c
    rw [h2, h3, h1]
    omega
  refine ⟨key 40, fun c => ⟨String.mk (famIn (c + 1)), ?_⟩⟩
  have h := key (c + 1)
  omega

/-- Claim C9 (amended): the corrected output length is bounded by a constant
multiple of the input length (plus the constant): each of the finitely many
rules multiplies the length by at most its fixed per-rule growth factor. -/
theorem corrections_growth_linear :
    ∃ K : Nat, ∀ x : String, (applyCorrections x).length ≤ K * (x.length + 1) := by
  obtain ⟨K, hK, hbd⟩ := runRules_growth corrections
  refine ⟨K * 4, fun x => ?_⟩
  show (applyCorrectionsL x.data).length ≤ K * 4 * (x.data.length + 1)
  unfold applyCorrectionsL
  split_ifs with hemp
  · have h0 : x.data = [] := List.isEmpty_iff.mp hemp
    rw [h0]
    simp
  · have hws := scanR_length_le wsCollapse (runRules corrections x.data).length
      (runRules corrections x.data) (le_refl _) none
    have hrb : rBound wsCollapse = 2 := rfl
    rw [hrb] at hws
    have hrun := hbd x.data
    have hA : (stripEdges (jsTrim (scanR wsCollapse none
        (runRules corrections x.data)))).length
        ≤ 2 * (runRules corrections x.data).length + 2 := by
      calc (stripEdges (jsTrim (scanR wsCollapse none
              (runRules corrections x.data)))).length
          ≤ (jsTrim (scanR wsCollapse none (runRules corrections x.data))).length :=
            stripEdges_length_le _
        _ ≤ (scanR wsCollapse none (runRules corrections x.data)).length :=
            jsTrim_length_le _
        _ ≤ 2 * (runRules corrections x.data).length + 2 := hws
    have hpos : 1 ≤ K * (x.data.length + 1) := Nat.mul_pos hK (by omega)
    have hexp : K * 4 * (x.data.length + 1) = 4 * (K * (x.data.length + 1)) := by ring
    rw [hexp]
    omega

end Voice
